import Mathlib

/-!
Verification development for UniSync (src/unisync.py, src/functions.py), a
one-way folder synchronizer.  The filesystem is modelled as a finite tree of
named files and directories; every function of `src/functions.py` that the
claims mention is transliterated into a Lean function over that model.  The
functions return, besides the new filesystem state, a trace of events: the
OS-level operations performed (file removals, tree removals, byte copies)
and the log lines emitted, so that ordering, counting and error-reporting
properties can be stated about the trace.

Modelling conventions:
- Paths are `OsPath`: an absolute/relative flag plus a list of name
  components.  `osJoin` mirrors `os.path.join`: if the second argument is
  absolute it discards the first.  The `"."` component that
  `os.path.relpath` produces for the walk root is dropped, because it is
  invisible to the filesystem (`a/./b` and `a/b` name the same entry) and
  both trees are walked with the same convention, so string-membership
  tests in the source compare exactly as component-list membership here.
- Machine-level byte contents are `List Nat`; the MD5 digest is modelled as
  a fold over the byte stream (the source folds 4096-byte chunks into a
  running hash state; chunking does not change the folded stream).
- The OS primitives (`os.remove`, `shutil.rmtree`, `shutil.copy2`,
  `shutil.copytree`, `open`/read) are black boxes that can fail; failure
  injection is modelled by a set of `locked` paths on which a primitive
  raises `PermissionError`, and by a `writeEffect` oracle giving the bytes
  actually stored by a write (normally the identity; a non-identity oracle
  models on-disk corruption between the copy and its verification read).
  Failing primitives are modelled as atomic: they leave the state unchanged.
-/

namespace UniSync

/-- Model of a filesystem path string: `os.path.isabs` flag plus name
components.  `os.path.join(a, b)` returns `b` unchanged when `b` is
absolute, otherwise concatenates. -/
structure OsPath where
  isAbs : Bool
  comps : List String
deriving DecidableEq, Repr

/-- Model of `os.path.join`. -/
def osJoin (a b : OsPath) : OsPath :=
  if b.isAbs then b else ⟨a.isAbs, a.comps ++ b.comps⟩

/-- Wraps a relative entry (as produced by `walk_folder_content`) as a path. -/
def relOf (item : List String) : OsPath := ⟨false, item⟩

/-- Boolean test that `p` is a prefix of `q` (the entry at `p` is `q` itself
or an ancestor of the entry at `q`). -/
def lePath : List String → List String → Bool
  | [], _ => true
  | _ :: _, [] => false
  | a :: as, b :: bs => if a = b then lePath as bs else false

mutual

/-- A filesystem node: a file with byte contents, or a directory. -/
inductive Node where
  | file (content : List Nat)
  | dir (children : Forest)
deriving DecidableEq, Repr

/-- The named children of a directory, in scandir order. -/
inductive Forest where
  | nil
  | cons (name : String) (node : Node) (rest : Forest)
deriving DecidableEq, Repr

end

/-- Kind of an entry, as reported by `os.path.isfile` / `os.path.isdir`. -/
inductive Kind where
  | file
  | dir
deriving DecidableEq, Repr

/-- The kind of a node. -/
def Node.kind : Node → Kind
  | .file _ => .file
  | .dir _ => .dir

/-- Whether a node is a directory. -/
def Node.isDirB : Node → Bool
  | .file _ => false
  | .dir _ => true

/-- Looks up the child with a given name. -/
def Forest.find : Forest → String → Option Node
  | .nil, _ => none
  | .cons nm n rest, a => if nm = a then some n else rest.find a

/-- Whether some child has the given name. -/
def Forest.hasName : Forest → String → Bool
  | .nil, _ => false
  | .cons nm _ rest, a => if nm = a then true else rest.hasName a

/-- Removes every child with the given name. -/
def Forest.del : Forest → String → Forest
  | .nil, _ => .nil
  | .cons nm n rest, a => if nm = a then rest.del a else .cons nm n (rest.del a)

/-- Replaces the node under the given name, or appends a new child. -/
def Forest.upsert : Forest → String → Node → Forest
  | .nil, a, v => .cons a v .nil
  | .cons nm n rest, a, v =>
    if nm = a then .cons nm v rest else .cons nm n (rest.upsert a v)

/-- Applies a function to the node(s) with the given name. -/
def Forest.mapAt : Forest → String → (Node → Node) → Forest
  | .nil, _, _ => .nil
  | .cons nm n rest, a, f =>
    if nm = a then .cons nm (f n) (rest.mapAt a f) else .cons nm n (rest.mapAt a f)

/-- Names of the file children, in order. -/
def Forest.fileNames : Forest → List String
  | .nil => []
  | .cons nm n rest =>
    if n.isDirB then rest.fileNames else nm :: rest.fileNames

/-- Names of the directory children, in order. -/
def Forest.dirNames : Forest → List String
  | .nil => []
  | .cons nm n rest =>
    if n.isDirB then nm :: rest.dirNames else rest.dirNames

/-- Follows a component path down from a node. -/
def lookupNode : Node → List String → Option Node
  | n, [] => some n
  | .file _, _ :: _ => none
  | .dir cs, a :: p =>
    match cs.find a with
    | some c => lookupNode c p
    | none => none

/-- Removes the entry at a (non-empty) path; no-op when the path is absent. -/
def removeAt : Node → List String → Node
  | n, [] => n
  | .file c, _ :: _ => .file c
  | .dir cs, [a] => .dir (cs.del a)
  | .dir cs, a :: b :: p => .dir (cs.mapAt a (fun n => removeAt n (b :: p)))

/-- Replaces or creates the entry at a path, assuming every proper ancestor
exists as a directory (otherwise the update is silently dropped, a situation
the callers rule out first). -/
def setAt : Node → List String → Node → Node
  | _, [], repl => repl
  | .file c, _ :: _, _ => .file c
  | .dir cs, [a], repl => .dir (cs.upsert a repl)
  | .dir cs, a :: b :: p, repl => .dir (cs.mapAt a (fun n => setAt n (b :: p) repl))

/-- Model of `os.makedirs`: creates the missing directories along the path,
descending through existing directories. -/
def mkdirsAt : Node → List String → Node
  | n, [] => n
  | .file c, _ :: _ => .file c
  | .dir cs, a :: p =>
    match cs.find a with
    | some _ => .dir (cs.mapAt a (fun n => mkdirsAt n p))
    | none => .dir (cs.upsert a (mkdirsAt (.dir .nil) p))

/-- Whether `os.makedirs` can materialize the path: every component that
already exists along it is a directory. -/
def canMakedirs : Node → List String → Bool
  | _, [] => true
  | .file _, _ :: _ => false
  | .dir cs, a :: p =>
    match cs.find a with
    | some m => canMakedirs m p
    | none => true

mutual

/-- Model of `walk_folder_content` (src/functions.py lines 102-118) on a
node: `os.walk` top-down order, at each directory the file names then the
directory names (`files + dirs`), then recursively each subdirectory's
block, every entry expressed relative to the walk root. -/
def walkEntries : Node → List (List String)
  | .file _ => []
  | .dir cs => (cs.fileNames ++ cs.dirNames).map (fun a => [a]) ++ walkSub cs

/-- Concatenation of the recursive walk blocks of the directory children. -/
def walkSub : Forest → List (List String)
  | .nil => []
  | .cons nm n rest =>
    (if n.isDirB then (walkEntries n).map (fun e => nm :: e) else []) ++ walkSub rest

end

mutual

/-- Well-formedness of a node: child names are unique at every level. -/
def Node.wfB : Node → Bool
  | .file _ => true
  | .dir cs => cs.wfB

/-- Well-formedness of a forest. -/
def Forest.wfB : Forest → Bool
  | .nil => true
  | .cons nm n rest => !(rest.hasName nm) && n.wfB && rest.wfB

end

mutual

/-- The subtree actually stored when a tree rooted at destination path `base`
is written: each file's bytes pass through the write oracle `we`. -/
def applyWE (we : List String → List Nat → List Nat) : List String → Node → Node
  | base, .file c => .file (we base c)
  | base, .dir cs => .dir (applyWEF we base cs)

/-- Forest version of `applyWE`. -/
def applyWEF (we : List String → List Nat → List Nat) : List String → Forest → Forest
  | _, .nil => .nil
  | base, .cons nm n rest => .cons nm (applyWE we (base ++ [nm]) n) (applyWEF we base rest)

end

/-- Relative paths of the files in a subtree. -/
def filesUnder (n : Node) : List (List String) :=
  (walkEntries n).filter (fun e =>
    match lookupNode n e with
    | some (.file _) => true
    | _ => false)

/-- Error kinds of the OS primitives, mirroring Python's OSError hierarchy
as far as the source's `except` clauses distinguish it. -/
inductive OsErr where
  | fileNotFound
  | permission
  | notADir
  | isADir
  | fileExists
  | other
deriving DecidableEq, Repr

/-- The two `ValueError`s of `check_path_validity` (lines 202-220). -/
inductive ValErr where
  | missingRoot (p : OsPath)
  | notAFolder (p : OsPath)
deriving DecidableEq, Repr

/-- The log lines the source emits, one constructor per `logging.info` call
site in src/functions.py. -/
inductive LogMsg where
  | removedOk (p : OsPath)
  | delNotFound (p : OsPath)
  | delPermission (p : OsPath)
  | delNotADir (p : OsPath)
  | delOsError (p : OsPath)
  | copiedVerified (p : OsPath)
  | copiedCompromised (p : OsPath)
  | copiedTree (src dst : OsPath)
  | copyNotFound (p : OsPath)
  | copyPermission (p : OsPath)
  | copyOsError (p : OsPath)
  | fatal (e : ValErr)
deriving DecidableEq, Repr

/-- Trace events: log lines, the OS mutations performed (with resolved
paths), and call markers for the tree walks and the per-item helpers. -/
inductive Ev where
  | log (m : LogMsg)
  | removed (p : List String)
  | rmtreed (p : List String)
  | copiedFile (src dst : List String)
  | treeCopied (src dst : List String)
  | walkCall (root : OsPath)
  | callDelete (p : OsPath)
  | callCopy (src dst : OsPath)
deriving DecidableEq, Repr

/-- System state: the filesystem tree rooted at `/`, the current working
directory (for resolving relative paths), the set of paths on which a
primitive raises `PermissionError`, and the write oracle. -/
structure Sys where
  root : Node
  cwd : List String
  locked : List (List String)
  writeEffect : List String → List Nat → List Nat

/-- Resolves a path against the working directory. -/
def resolve (s : Sys) (p : OsPath) : List String :=
  if p.isAbs then p.comps else s.cwd ++ p.comps

/-- Looks a path up in the filesystem. -/
def sLookup (s : Sys) (p : OsPath) : Option Node :=
  lookupNode s.root (resolve s p)

/-- Model of `os.path.isfile`. -/
def isfileB (s : Sys) (p : OsPath) : Bool :=
  match sLookup s p with
  | some (.file _) => true
  | _ => false

/-- Model of `os.path.isdir`. -/
def isdirB (s : Sys) (p : OsPath) : Bool :=
  match sLookup s p with
  | some (.dir _) => true
  | _ => false

/-- Model of `os.path.exists`. -/
def existsB (s : Sys) (p : OsPath) : Bool :=
  (sLookup s p).isSome

/-- Whether a locked path lies at or below `q` (an operation on the subtree
at `q` hits it). -/
def lockedUnder (s : Sys) (q : List String) : Bool :=
  s.locked.any (fun l => lePath q l)

/-- Model of the MD5 digest of `calculate_md5` (lines 48-65): a fold of the
byte stream into a running 128-bit state.  The source folds 4096-byte
chunks; chunking does not change the folded stream. -/
def md5fold (bytes : List Nat) : Nat :=
  bytes.foldl (fun h b => (h * 257 + b + 1) % (2 ^ 128)) 0

/-- Model of `os.remove`. -/
def os_remove (s : Sys) (p : OsPath) : Except OsErr (Sys × List Ev) :=
  let q := resolve s p
  match lookupNode s.root q with
  | none => .error .fileNotFound
  | some (.dir _) => .error .isADir
  | some (.file _) =>
    if q ∈ s.locked then .error .permission
    else .ok ({ s with root := removeAt s.root q }, [.removed q])

/-- Model of `shutil.rmtree`: recursive removal of a directory; raises
`PermissionError` when a locked path lies in the subtree (modelled as
atomic: the state is then unchanged). -/
def shutil_rmtree (s : Sys) (p : OsPath) : Except OsErr (Sys × List Ev) :=
  let q := resolve s p
  match lookupNode s.root q with
  | none => .error .fileNotFound
  | some (.file _) => .error .notADir
  | some (.dir _) =>
    if lockedUnder s q then .error .permission
    else .ok ({ s with root := removeAt s.root q }, [.rmtreed q])

/-- Model of `calculate_md5` (lines 48-65): opens and digests a file. -/
def calculate_md5 (s : Sys) (p : OsPath) : Except OsErr Nat :=
  let q := resolve s p
  match lookupNode s.root q with
  | none => .error .fileNotFound
  | some (.dir _) => .error .isADir
  | some (.file c) =>
    if q ∈ s.locked then .error .permission else .ok (md5fold c)

/-- Model of `shutil.copy2`: copies one file's bytes.  A destination that is
an existing directory receives the file under the source's basename; the
destination's parent must exist as a directory. -/
def shutil_copy2 (s : Sys) (src dst : OsPath) : Except OsErr (Sys × List Ev) :=
  let sq := resolve s src
  match lookupNode s.root sq with
  | none => .error .fileNotFound
  | some (.dir _) => .error .isADir
  | some (.file c) =>
    if sq ∈ s.locked then .error .permission
    else
      let dq0 := resolve s dst
      let dq :=
        match lookupNode s.root dq0 with
        | some (.dir _) => dq0 ++ [sq.getLastD ""]
        | _ => dq0
      if dq = [] then .error .other
      else
        match lookupNode s.root dq.dropLast with
        | none => .error .fileNotFound
        | some (.file _) => .error .notADir
        | some (.dir _) =>
          match lookupNode s.root dq with
          | some (.dir _) => .error .isADir
          | _ =>
            if dq ∈ s.locked then .error .permission
            else
              .ok ({ s with root := setAt s.root dq (.file (s.writeEffect dq c)) },
                [.copiedFile sq dq])

/-- Model of `shutil.copytree`: the destination must not already exist
(`os.makedirs` raises `FileExistsError` otherwise), missing intermediate
directories are created, then the whole subtree is copied, each contained
file's bytes individually (copytree calls copy2 per file). -/
def shutil_copytree (s : Sys) (src dst : OsPath) : Except OsErr (Sys × List Ev) :=
  let sq := resolve s src
  match lookupNode s.root sq with
  | none => .error .fileNotFound
  | some (.file _) => .error .notADir
  | some (.dir cs) =>
    let dq := resolve s dst
    if (lookupNode s.root dq).isSome then .error .fileExists
    else if !(canMakedirs s.root dq) then .error .notADir
    else if lockedUnder s sq || dq ∈ s.locked then .error .permission
    else
      let newRoot := setAt (mkdirsAt s.root dq.dropLast) dq (applyWE s.writeEffect dq (.dir cs))
      .ok ({ s with root := newRoot },
        .treeCopied sq dq ::
          (filesUnder (.dir cs)).map (fun f => .copiedFile (sq ++ f) (dq ++ f)))

/-- Maps a caught exception to the log line of `delete_item`'s `except`
clauses (lines 92-99): `FileNotFoundError`, `PermissionError`,
`NotADirectoryError`, then any other `OSError`. -/
def deleteErrLog : OsErr → OsPath → LogMsg
  | .fileNotFound, p => .delNotFound p
  | .permission, p => .delPermission p
  | .notADir, p => .delNotADir p
  | _, p => .delOsError p

/-- Maps a caught exception to the log line of `copy_item`'s `except`
clauses (lines 169-174): `FileNotFoundError`, `PermissionError`, then any
other `OSError`. -/
def copyErrLog : OsErr → OsPath → LogMsg
  | .fileNotFound, p => .copyNotFound p
  | .permission, p => .copyPermission p
  | _, p => .copyOsError p

/-- Model of `delete_item` (lines 68-99): `os.remove` a file, `rmtree` a
directory, nothing when the path is neither; the success line is logged
after the (possibly absent) removal, every `OSError` is caught and logged,
nothing is raised to the caller. -/
def delete_item (s : Sys) (p : OsPath) : Sys × List Ev :=
  let attempt : Except OsErr (Sys × List Ev) :=
    if isfileB s p then os_remove s p
    else if isdirB s p then shutil_rmtree s p
    else .ok (s, [])
  match attempt with
  | .ok (s1, evs) => (s1, .callDelete p :: evs ++ [.log (.removedOk p)])
  | .error e => (s, [.callDelete p, .log (deleteErrLog e p)])

/-- Model of `copy_item` (lines 142-174): a file is copied with `copy2` and
both the source and the fresh destination are digested and compared; a
directory is copied whole with `copytree`; a path that is neither is
silently skipped; every `OSError` is caught and logged (state changes made
before the exception persist), nothing is raised to the caller. -/
def copy_item (s : Sys) (sp rp : OsPath) : Sys × List Ev :=
  if isfileB s sp then
    match shutil_copy2 s sp rp with
    | .error e => (s, [.callCopy sp rp, .log (copyErrLog e sp)])
    | .ok (s1, evs) =>
      match calculate_md5 s1 sp with
      | .error e => (s1, .callCopy sp rp :: evs ++ [.log (copyErrLog e sp)])
      | .ok smd5 =>
        match calculate_md5 s1 rp with
        | .error e => (s1, .callCopy sp rp :: evs ++ [.log (copyErrLog e sp)])
        | .ok rmd5 =>
          (s1, .callCopy sp rp :: evs ++
            [.log (if smd5 = rmd5 then .copiedVerified sp else .copiedCompromised sp)])
  else if isdirB s sp then
    match shutil_copytree s sp rp with
    | .error e => (s, [.callCopy sp rp, .log (copyErrLog e sp)])
    | .ok (s1, evs) => (s1, .callCopy sp rp :: evs ++ [.log (.copiedTree sp rp)])
  else (s, [.callCopy sp rp])

/-- Model of `walk_folder_content` (lines 102-118): the relative entries of
every file and directory under the root; `os.walk` of a missing path or of
a file yields nothing. -/
def walk_folder_content (s : Sys) (folder : OsPath) : List (List String) :=
  match sLookup s folder with
  | some (.dir cs) => walkEntries (.dir cs)
  | _ => []

/-- The `for` loop of `delete_extra_items_from_replica` (lines 136-139):
every replica item absent from the source listing is deleted at its real
path under the replica root. -/
def deleteLoop (sourceItems : List (List String)) (replica : OsPath) :
    Sys → List (List String) → Sys × List Ev
  | s, [] => (s, [])
  | s, item :: rest =>
    if item ∈ sourceItems then deleteLoop sourceItems replica s rest
    else
      let r1 := delete_item s (osJoin replica (relOf item))
      let r2 := deleteLoop sourceItems replica r1.1 rest
      (r2.1, r1.2 ++ r2.2)

/-- Model of `delete_extra_items_from_replica` (lines 121-139). -/
def delete_extra_items_from_replica (s : Sys) (source replica : OsPath) : Sys × List Ev :=
  let sourceItems := walk_folder_content s source
  let replicaItems := walk_folder_content s replica
  let r := deleteLoop sourceItems replica s replicaItems
  (r.1, .walkCall source :: .walkCall replica :: r.2)

/-- The `for` loop of `copy_new_from_source_to_replica` (lines 192-199):
every source item absent from the replica listing is copied; for a
directory item the destination is re-joined a second time onto the replica
root (lines 197-198), exactly as the source does. -/
def copyLoop (replicaItems : List (List String)) (source replica : OsPath) :
    Sys → List (List String) → Sys × List Ev
  | s, [] => (s, [])
  | s, item :: rest =>
    if item ∈ replicaItems then copyLoop replicaItems source replica s rest
    else
      let sp := osJoin source (relOf item)
      let rp :=
        if isdirB s sp then osJoin replica (osJoin replica (relOf item))
        else osJoin replica (relOf item)
      let r1 := copy_item s sp rp
      let r2 := copyLoop replicaItems source replica r1.1 rest
      (r2.1, r1.2 ++ r2.2)

/-- Model of `copy_new_from_source_to_replica` (lines 177-199). -/
def copy_new_from_source_to_replica (s : Sys) (source replica : OsPath) : Sys × List Ev :=
  let sourceItems := walk_folder_content s source
  let replicaItems := walk_folder_content s replica
  let r := copyLoop replicaItems source replica s sourceItems
  (r.1, .walkCall source :: .walkCall replica :: r.2)

/-- Model of `check_path_validity` (lines 202-220). -/
def check_path_validity (s : Sys) (p : OsPath) : Except ValErr Unit :=
  if !(existsB s p) then .error (.missingRoot p)
  else if !(isdirB s p) then .error (.notAFolder p)
  else .ok ()

/-- One iteration of the `while True` loop of `sync_folders` (lines
246-248): delete the extras, then copy the missing items. -/
def syncCycle (s : Sys) (source replica : OsPath) : Sys × List Ev :=
  let r1 := delete_extra_items_from_replica s source replica
  let r2 := copy_new_from_source_to_replica r1.1 source replica
  (r2.1, r1.2 ++ r2.2)

/-- The first `n` iterations of the unbounded periodic loop (the loop sleeps
between iterations and never exits on its own; `n` is how many iterations
are observed). -/
def syncCycles (source replica : OsPath) : Sys → Nat → Sys × List Ev
  | s, 0 => (s, [])
  | s, n + 1 =>
    let r1 := syncCycle s source replica
    let r2 := syncCycles source replica r1.1 n
    (r2.1, r1.2 ++ r2.2)

/-- Model of `sync_folders` (lines 223-252): both roots are validated (the
first `ValueError` is logged once and the run returns before any cycle);
with no interval the loop body runs exactly once, with an interval the
cycle repeats forever, of which `observedCycles` iterations are observed. -/
def sync_folders (s : Sys) (source replica : OsPath)
    (syncInterval : Option Nat) (observedCycles : Nat) : Sys × List Ev :=
  match check_path_validity s source with
  | .error e => (s, [.log (.fatal e)])
  | .ok _ =>
    match check_path_validity s replica with
    | .error e => (s, [.log (.fatal e)])
    | .ok _ =>
      match syncInterval with
      | none => syncCycle s source replica
      | some _ => syncCycles source replica s observedCycles

/-- Whether a log line reports a per-item failure (a caught `OSError`). -/
def isFailLog : Ev → Bool
  | .log (.delNotFound _) => true
  | .log (.delPermission _) => true
  | .log (.delNotADir _) => true
  | .log (.delOsError _) => true
  | .log (.copyNotFound _) => true
  | .log (.copyPermission _) => true
  | .log (.copyOsError _) => true
  | _ => false

/-- A trace with no per-item failure. -/
def noFailure (evs : List Ev) : Bool :=
  evs.all (fun e => !(isFailLog e))

/-! Concrete fixture systems used by the witnesses and counterexamples. -/

/-- The identity write oracle: writes store exactly the bytes given. -/
def idWE : List String → List Nat → List Nat := fun _ c => c

/-- Absolute source root `/src`. -/
def pS : OsPath := ⟨true, ["src"]⟩

/-- Absolute replica root `/rep`. -/
def pR : OsPath := ⟨true, ["rep"]⟩

/-- Fixture: source `{a, d/, d/x}`, replica `{old}`, nothing locked. -/
def sysMixed : Sys :=
  { root := .dir (.cons "src"
        (.dir (.cons "a" (.file [1]) (.cons "d" (.dir (.cons "x" (.file [3]) .nil)) .nil)))
        (.cons "rep" (.dir (.cons "old" (.file [2]) .nil)) .nil))
    cwd := []
    locked := []
    writeEffect := idWE }

/-- Fixture: relative roots `source` and `replica` (resolved against an
empty working directory); source holds one directory `d`, replica is empty. -/
def sysRelRoot : Sys :=
  { root := .dir (.cons "source" (.dir (.cons "d" (.dir .nil) .nil))
        (.cons "replica" (.dir .nil) .nil))
    cwd := []
    locked := []
    writeEffect := idWE }

/-- Relative source root path `source`. -/
def pSrel : OsPath := ⟨false, ["source"]⟩

/-- Relative replica root path `replica`. -/
def pRrel : OsPath := ⟨false, ["replica"]⟩

/-- Fixture: the relative path `p` is a file in the source tree and a
directory in the replica tree. -/
def sysKindFlip : Sys :=
  { root := .dir (.cons "src" (.dir (.cons "p" (.file [7]) .nil))
        (.cons "rep" (.dir (.cons "p" (.dir .nil) .nil)) .nil))
    cwd := []
    locked := []
    writeEffect := idWE }

/-- Fixture: source `{d/, d/x}` with the file contents a parameter, replica
empty. -/
def sysNestedFile (c : List Nat) : Sys :=
  { root := .dir (.cons "src" (.dir (.cons "d" (.dir (.cons "x" (.file c) .nil)) .nil))
        (.cons "rep" (.dir .nil) .nil))
    cwd := []
    locked := []
    writeEffect := idWE }

/-- Fixture: source `{a}`, replica empty, and a write oracle that corrupts
every stored file by prepending a byte. -/
def sysCorrupt : Sys :=
  { root := .dir (.cons "src" (.dir (.cons "a" (.file [1]) .nil))
        (.cons "rep" (.dir .nil) .nil))
    cwd := []
    locked := []
    writeEffect := fun _ c => 9 :: c }

/-- Fixture: only the replica root exists; the source root is missing. -/
def sysNoSource : Sys :=
  { root := .dir (.cons "rep" (.dir (.cons "old" (.file [2]) .nil)) .nil)
    cwd := []
    locked := []
    writeEffect := idWE }

/-- A path that exists nowhere in the fixtures. -/
def pGhost : OsPath := ⟨true, ["ghost"]⟩

/-!  Claim C9: `copy_item` on a source path that is neither an existing file
nor an existing directory. -/

/-- Claim C9: if the source path given to `copy_item` refers to neither an
existing file nor an existing directory, the call is a silent no-op — the
state is unchanged and no log line and no filesystem operation is emitted
(the trace holds only the call marker). -/
theorem copy_item_silent_on_missing (s : Sys) (sp rp : OsPath)
    (h : sLookup s sp = none) :
    copy_item s sp rp = (s, [.callCopy sp rp]) := by
  unfold copy_item isfileB isdirB
  rw [h]
  rfl

/-- Witness for C9 at a concrete input. -/
theorem copy_item_silent_on_missing_witness :
    sLookup sysMixed pGhost = none ∧
      copy_item sysMixed pGhost pR = (sysMixed, [.callCopy pGhost pR]) :=
  ⟨by decide, copy_item_silent_on_missing sysMixed pGhost pR (by decide)⟩

/-!  Claim C6: validation failure aborts the run before any mutation. -/

/-- Claim C6: if either root path does not exist or is not a directory,
`sync_folders` logs the one validation failure and returns with the state
untouched — no cycle executes, whatever the interval mode and however many
loop iterations would have been observed. -/
theorem sync_folders_aborts_on_invalid_root (s : Sys) (source replica : OsPath)
    (iv : Option Nat) (n : Nat) (e : ValErr)
    (h : check_path_validity s source = .error e ∨
      (check_path_validity s source = .ok () ∧ check_path_validity s replica = .error e)) :
    sync_folders s source replica iv n = (s, [.log (.fatal e)]) := by
  rcases h with h | ⟨h1, h2⟩
  · unfold sync_folders
    rw [h]
  · unfold sync_folders
    rw [h1, h2]

/-- Witness for C6: a missing source root. -/
theorem sync_folders_aborts_on_invalid_root_witness :
    check_path_validity sysNoSource pS = .error (.missingRoot pS) ∧
      sync_folders sysNoSource pS pR none 3 = (sysNoSource, [.log (.fatal (.missingRoot pS))]) :=
  ⟨by rfl,
    sync_folders_aborts_on_invalid_root sysNoSource pS pR none 3 (.missingRoot pS)
      (Or.inl (by rfl))⟩

/-!  Claim C5: the outcomes reported by `delete_item`. -/

/-- Counterexample to C5 as stated: `delete_item` on a path that does not
exist removes nothing and logs the success line (no not-found outcome is
reported), because the success log sits inside the `try` block after an
`if`/`elif` with no `else`. -/
theorem delete_item_missing_success_cex :
    sLookup sysMixed pGhost = none ∧
      (delete_item sysMixed pGhost).2 = [.callDelete pGhost, .log (.removedOk pGhost)] ∧
      (delete_item sysMixed pGhost).1.root = sysMixed.root := by
  refine ⟨by decide, by decide, by decide⟩

/-- Case analysis of `delete_item`: the five possible outcomes, keyed on
what the path resolves to and on the lock set. -/
theorem delete_item_cases (s : Sys) (p : OsPath) :
    (sLookup s p = none →
      delete_item s p = (s, [.callDelete p, .log (.removedOk p)])) ∧
    (∀ c, sLookup s p = some (.file c) → resolve s p ∉ s.locked →
      delete_item s p = ({ s with root := removeAt s.root (resolve s p) },
        [.callDelete p, .removed (resolve s p), .log (.removedOk p)])) ∧
    (∀ c, sLookup s p = some (.file c) → resolve s p ∈ s.locked →
      delete_item s p = (s, [.callDelete p, .log (.delPermission p)])) ∧
    (∀ cs, sLookup s p = some (.dir cs) → lockedUnder s (resolve s p) = false →
      delete_item s p = ({ s with root := removeAt s.root (resolve s p) },
        [.callDelete p, .rmtreed (resolve s p), .log (.removedOk p)])) ∧
    (∀ cs, sLookup s p = some (.dir cs) → lockedUnder s (resolve s p) = true →
      delete_item s p = (s, [.callDelete p, .log (.delPermission p)])) := by
  unfold delete_item os_remove shutil_rmtree isfileB isdirB
  refine ⟨fun h => ?_, fun c h hl => ?_, fun c h hl => ?_, fun cs h hl => ?_, fun cs h hl => ?_⟩
  · rw [h]
    rfl
  · unfold sLookup at h
    simp [sLookup, h, hl, deleteErrLog]
  · unfold sLookup at h
    simp [sLookup, h, hl, deleteErrLog]
  · unfold sLookup at h
    simp [sLookup, h, hl, deleteErrLog]
  · unfold sLookup at h
    simp [sLookup, h, hl, deleteErrLog]

/-- Claim C5 (amended): `delete_item` reports permission-denied exactly when
the removal hits a locked path and otherwise reports success, including the
no-op case of a path that does not exist; an existing unlocked file is
removed with `os.remove`, an existing unlocked directory with
`shutil.rmtree`, and the call always returns normally with exactly one log
line. -/
theorem delete_item_outcomes (s : Sys) (p : OsPath) :
    (sLookup s p = none →
      delete_item s p = (s, [.callDelete p, .log (.removedOk p)])) ∧
    (∀ c, sLookup s p = some (.file c) → resolve s p ∉ s.locked →
      delete_item s p = ({ s with root := removeAt s.root (resolve s p) },
        [.callDelete p, .removed (resolve s p), .log (.removedOk p)])) ∧
    (∀ c, sLookup s p = some (.file c) → resolve s p ∈ s.locked →
      delete_item s p = (s, [.callDelete p, .log (.delPermission p)])) ∧
    (∀ cs, sLookup s p = some (.dir cs) → lockedUnder s (resolve s p) = false →
      delete_item s p = ({ s with root := removeAt s.root (resolve s p) },
        [.callDelete p, .rmtreed (resolve s p), .log (.removedOk p)])) ∧
    (∀ cs, sLookup s p = some (.dir cs) → lockedUnder s (resolve s p) = true →
      delete_item s p = (s, [.callDelete p, .log (.delPermission p)])) :=
  delete_item_cases s p

/-- Witness for C5 (amended), exercising the unlocked-file branch. -/
theorem delete_item_outcomes_witness :
    sLookup sysMixed ⟨true, ["rep", "old"]⟩ = some (.file [2]) ∧
      delete_item sysMixed ⟨true, ["rep", "old"]⟩ =
        ({ sysMixed with root := removeAt sysMixed.root ["rep", "old"] },
          [.callDelete ⟨true, ["rep", "old"]⟩, .removed ["rep", "old"],
            .log (.removedOk ⟨true, ["rep", "old"]⟩)]) :=
  ⟨by decide,
    (delete_item_outcomes sysMixed ⟨true, ["rep", "old"]⟩).2.1 [2] (by decide) (by decide)⟩

/-!  Claim C2: the delete-then-copy ordering does not repair a path whose
kind flipped from directory (replica) to file (source): the kind-blind diff
lists the path in both trees, so it is neither deleted nor copied. -/

/-- Evaluation of the cycle at C2's failing input: `p` is a file in source
and a directory in replica; the cycle performs no operation at all (the
trace is just the four walks), and afterwards the replica still holds a
directory at `p`, not the source's file. -/
theorem kind_flip_cycle_does_nothing :
    isfileB sysKindFlip ⟨true, ["src", "p"]⟩ = true ∧
      isdirB sysKindFlip ⟨true, ["rep", "p"]⟩ = true ∧
      (syncCycle sysKindFlip pS pR).2 =
        [.walkCall pS, .walkCall pR, .walkCall pS, .walkCall pR] ∧
      sLookup (syncCycle sysKindFlip pS pR).1 ⟨true, ["rep", "p"]⟩ = some (.dir .nil) := by
  refine ⟨by decide, by decide, by decide, by decide⟩

/-!  Claim C4: destination resolution of the copy phase. -/

/-- Evaluation of the code at C4's failing input: with the relative replica
root `replica`, the missing source directory `d` is copied to
`replica/replica/d` (the replica root is joined twice, lines 197-198 of
src/functions.py), not to `replica/d`, and no failure is reported. -/
theorem relative_root_wrong_destination_cex :
    (Ev.treeCopied ["source", "d"] ["replica", "replica", "d"])
        ∈ (syncCycle sysRelRoot pSrel pRrel).2 ∧
      (Ev.treeCopied ["source", "d"] ["replica", "d"])
        ∉ (syncCycle sysRelRoot pSrel pRrel).2 ∧
      sLookup (syncCycle sysRelRoot pSrel pRrel).1 ⟨false, ["replica", "d"]⟩ = none ∧
      sLookup (syncCycle sysRelRoot pSrel pRrel).1 ⟨false, ["replica", "replica", "d"]⟩ =
        some (.dir .nil) ∧
      noFailure (syncCycle sysRelRoot pSrel pRrel).2 = true := by
  refine ⟨by decide, by decide, by decide, by decide, by decide⟩

/-!  Claim C1, counterexample side: with a relative replica root the cycle
does not converge even though both trees are valid directories and no
per-item operation fails. -/

/-- Counterexample to C1 as stated for a relative replica root: after one
cycle with no failure, the source holds the entry `d` but the replica does
not (it holds `replica` and `replica/d` instead, from the double join of
lines 197-198). -/
theorem convergence_relative_root_cex :
    sysRelRoot.root.wfB = true ∧
      isdirB sysRelRoot pSrel = true ∧
      isdirB sysRelRoot pRrel = true ∧
      noFailure (syncCycle sysRelRoot pSrel pRrel).2 = true ∧
      ["d"] ∈ walk_folder_content (syncCycle sysRelRoot pSrel pRrel).1 pSrel ∧
      ["d"] ∉ walk_folder_content (syncCycle sysRelRoot pSrel pRrel).1 pRrel := by
  refine ⟨by decide, by decide, by decide, by decide, by decide, by decide⟩

/-!  Claim C3, counterexample side: a file nested under a brand-new
directory is copied twice in the cycle, once inside the whole-subtree copy
and once individually, because the copy phase's replica listing is not
refreshed after the subtree copy. -/

/-- Counterexample to C3 as stated: in a cycle on source `{d/, d/x}` against
an empty replica, the bytes of `d/x` are copied twice, not once. -/
theorem nested_file_double_copy_cex :
    ((syncCycle (sysNestedFile [3]) pS pR).2.filter (fun e =>
        match e with
        | .copiedFile src _ => decide (src = ["src", "d", "x"])
        | _ => false)).length = 2 := by
  decide

/-! Event classifiers, used to state trace-shape properties. -/

/-- Whether an event is a `walk_folder_content` call marker. -/
def isWalkEv : Ev → Bool
  | .walkCall _ => true
  | _ => false

/-- Whether an event belongs to the delete phase (a `delete_item` call, one
of its removals, or one of its log lines). -/
def isDeleteSideEv : Ev → Bool
  | .callDelete _ => true
  | .removed _ => true
  | .rmtreed _ => true
  | .log (.removedOk _) => true
  | .log (.delNotFound _) => true
  | .log (.delPermission _) => true
  | .log (.delNotADir _) => true
  | .log (.delOsError _) => true
  | _ => false

/-- Whether an event belongs to the copy phase (a `copy_item` call, one of
its byte copies, or one of its log lines). -/
def isCopySideEv : Ev → Bool
  | .callCopy _ _ => true
  | .copiedFile _ _ => true
  | .treeCopied _ _ => true
  | .log (.copiedVerified _) => true
  | .log (.copiedCompromised _) => true
  | .log (.copiedTree _ _) => true
  | .log (.copyNotFound _) => true
  | .log (.copyPermission _) => true
  | .log (.copyOsError _) => true
  | _ => false

/-- The argument of a `delete_item` call marker. -/
def callDeleteArg : Ev → Option OsPath
  | .callDelete p => some p
  | _ => none

/-- The source argument of a `copy_item` call marker. -/
def callCopySrc : Ev → Option OsPath
  | .callCopy sp _ => some sp
  | _ => none

/-- The items of a listing that are absent from the other tree's listing
(the diff the loops act on). -/
def extrasOf (other items : List (List String)) : List (List String) :=
  items.filter (fun i => !(decide (i ∈ other)))

/-- The log line of a caught copy error is a copy-phase event. -/
theorem isCopySideEv_errLog (e : OsErr) (p : OsPath) :
    isCopySideEv (.log (copyErrLog e p)) = true := by
  cases e <;> rfl

/-- The log line of a caught delete error is a delete-phase event. -/
theorem isDeleteSideEv_errLog (e : OsErr) (p : OsPath) :
    isDeleteSideEv (.log (deleteErrLog e p)) = true := by
  cases e <;> rfl

/-- A successful `shutil_copy2` emits exactly one byte-copy event. -/
theorem copy2_events {s : Sys} {src dst : OsPath} {s1 : Sys} {evs : List Ev}
    (h : shutil_copy2 s src dst = .ok (s1, evs)) :
    ∃ (a b : List String), evs = [.copiedFile a b] := by
  simp only [shutil_copy2] at h
  repeat' split at h
  all_goals simp only [Except.ok.injEq, Prod.mk.injEq, reduceCtorEq] at h
  all_goals exact ⟨_, _, h.2.symm⟩

/-- A successful `shutil_copytree` emits the tree-copy event followed by one
byte-copy event per contained file. -/
theorem copytree_events {s : Sys} {src dst : OsPath} {s1 : Sys} {evs : List Ev}
    (h : shutil_copytree s src dst = .ok (s1, evs)) :
    ∃ (a b : List String) (fs : List (List String)),
      evs = .treeCopied a b :: fs.map (fun f => Ev.copiedFile (a ++ f) (b ++ f)) := by
  simp only [shutil_copytree] at h
  split at h
  · exact absurd h (by simp)
  · exact absurd h (by simp)
  · split at h
    · exact absurd h (by simp)
    · split at h
      · exact absurd h (by simp)
      · split at h
        · exact absurd h (by simp)
        · simp only [Except.ok.injEq, Prod.mk.injEq] at h
          exact ⟨_, _, _, h.2.symm⟩

/-- Trace facts for one `delete_item` call: exactly one call marker (with
its path), and only delete-phase events. -/
theorem delete_item_trace_facts (s : Sys) (p : OsPath) :
    (delete_item s p).2.filterMap callDeleteArg = [p] ∧
      (delete_item s p).2.all isDeleteSideEv = true := by
  rcases hsl : sLookup s p with _ | n
  · rw [(delete_item_cases s p).1 hsl]
    simp [callDeleteArg, isDeleteSideEv]
  · cases n with
    | file c =>
      by_cases hl : resolve s p ∈ s.locked
      · rw [(delete_item_cases s p).2.2.1 c hsl hl]
        simp [callDeleteArg, isDeleteSideEv]
      · rw [(delete_item_cases s p).2.1 c hsl hl]
        simp [callDeleteArg, isDeleteSideEv]
    | dir cs =>
      cases hl : lockedUnder s (resolve s p)
      · rw [(delete_item_cases s p).2.2.2.1 cs hsl hl]
        simp [callDeleteArg, isDeleteSideEv]
      · rw [(delete_item_cases s p).2.2.2.2 cs hsl hl]
        simp [callDeleteArg, isDeleteSideEv]

/-- Trace facts for one `copy_item` call: exactly one call marker (with its
source path), and only copy-phase events. -/
theorem copy_item_trace_facts (s : Sys) (sp rp : OsPath) :
    (copy_item s sp rp).2.filterMap callCopySrc = [sp] ∧
      (copy_item s sp rp).2.all isCopySideEv = true := by
  by_cases hf : isfileB s sp = true
  · rcases h2 : shutil_copy2 s sp rp with e | ⟨s1, evs⟩
    · simp [copy_item, hf, h2, callCopySrc, isCopySideEv, isCopySideEv_errLog]
      cases e <;> rfl
    · obtain ⟨a, b, rfl⟩ := copy2_events h2
      rcases h3 : calculate_md5 s1 sp with e | smd5
      · simp [copy_item, hf, h2, h3, callCopySrc, isCopySideEv, isCopySideEv_errLog]
        cases e <;> rfl
      · rcases h4 : calculate_md5 s1 rp with e | rmd5
        · simp [copy_item, hf, h2, h3, h4, callCopySrc, isCopySideEv, isCopySideEv_errLog]
          cases e <;> rfl
        · by_cases h5 : smd5 = rmd5 <;>
            simp [copy_item, hf, h2, h3, h4, h5, callCopySrc, isCopySideEv]
  · by_cases hd : isdirB s sp = true
    · rcases h2 : shutil_copytree s sp rp with e | ⟨s1, evs⟩
      · simp [copy_item, hf, hd, h2, callCopySrc, isCopySideEv, isCopySideEv_errLog]
        cases e <;> rfl
      · obtain ⟨a, b, fs, rfl⟩ := copytree_events h2
        simp [copy_item, hf, hd, h2, callCopySrc, isCopySideEv, List.all_map]
    · simp [copy_item, hf, hd, callCopySrc, isCopySideEv]

/-- Trace facts for the delete loop: one `delete_item` call per extra item,
in listing order, whatever each call's outcome, and only delete-phase
events. -/
theorem deleteLoop_facts (si : List (List String)) (rep : OsPath)
    (items : List (List String)) :
    ∀ s : Sys,
      (deleteLoop si rep s items).2.filterMap callDeleteArg =
          (extrasOf si items).map (fun i => osJoin rep (relOf i)) ∧
        (deleteLoop si rep s items).2.all isDeleteSideEv = true := by
  induction items with
  | nil => intro s; simp [deleteLoop, extrasOf]
  | cons i rest ih =>
    intro s
    by_cases hm : i ∈ si
    · simpa [deleteLoop, hm, extrasOf] using ih s
    · have h1 := delete_item_trace_facts s (osJoin rep (relOf i))
      have h2 := ih (delete_item s (osJoin rep (relOf i))).1
      simp [deleteLoop, hm, extrasOf, h1.1, h1.2, h2.1, h2.2]

/-- Trace facts for the copy loop: one `copy_item` call per missing item, in
listing order, whatever each call's outcome, and only copy-phase events. -/
theorem copyLoop_facts (ri : List (List String)) (source replica : OsPath)
    (items : List (List String)) :
    ∀ s : Sys,
      (copyLoop ri source replica s items).2.filterMap callCopySrc =
          (extrasOf ri items).map (fun i => osJoin source (relOf i)) ∧
        (copyLoop ri source replica s items).2.all isCopySideEv = true := by
  induction items with
  | nil => intro s; simp [copyLoop, extrasOf]
  | cons i rest ih =>
    intro s
    by_cases hm : i ∈ ri
    · simpa [copyLoop, hm, extrasOf] using ih s
    · cases hdd : isdirB s (osJoin source (relOf i)) with
      | false =>
        have h1 := copy_item_trace_facts s (osJoin source (relOf i))
          (osJoin replica (relOf i))
        have h2 := ih (copy_item s (osJoin source (relOf i)) (osJoin replica (relOf i))).1
        simp [copyLoop, hm, hdd, extrasOf, h1.1, h1.2, h2.1, h2.2]
      | true =>
        have h1 := copy_item_trace_facts s (osJoin source (relOf i))
          (osJoin replica (osJoin replica (relOf i)))
        have h2 := ih (copy_item s (osJoin source (relOf i))
          (osJoin replica (osJoin replica (relOf i)))).1
        simp [copyLoop, hm, hdd, extrasOf, h1.1, h1.2, h2.1, h2.2]

/-- Claim C8: whatever the outcome of each per-item operation (including
not-found, permission-denied, wrong-type and other caught I/O errors),
every remaining item of the cycle is still processed: the delete loop makes
exactly one `delete_item` call per extra item and the copy loop exactly one
`copy_item` call per missing item, in listing order, for every state. -/
theorem cycle_attempts_every_item :
    (∀ (si : List (List String)) (rep : OsPath) (s : Sys) (items : List (List String)),
      (deleteLoop si rep s items).2.filterMap callDeleteArg =
        (extrasOf si items).map (fun i => osJoin rep (relOf i))) ∧
    (∀ (ri : List (List String)) (source replica : OsPath) (s : Sys)
        (items : List (List String)),
      (copyLoop ri source replica s items).2.filterMap callCopySrc =
        (extrasOf ri items).map (fun i => osJoin source (relOf i))) :=
  ⟨fun si rep s items => (deleteLoop_facts si rep items s).1,
    fun ri source replica s items => (copyLoop_facts ri source replica items s).1⟩

/-- Claim C10: in every cycle both trees are walked twice — once at the
start of the delete phase and once at the start of the copy phase; between
the two walk pairs there are only delete-phase events, after the second
pair only copy-phase events, and the copy phase runs on the state left by
the completed delete phase. -/
theorem cycle_walks_twice_between_phases (s : Sys) (source replica : OsPath) :
    ∃ t1 t2,
      (syncCycle s source replica).2 =
          (.walkCall source :: .walkCall replica :: t1) ++
            (.walkCall source :: .walkCall replica :: t2) ∧
        t1.all isDeleteSideEv = true ∧
        t2.all isCopySideEv = true ∧
        (syncCycle s source replica).1 =
          (copy_new_from_source_to_replica
            (delete_extra_items_from_replica s source replica).1 source replica).1 := by
  refine ⟨(deleteLoop (walk_folder_content s source) replica s
      (walk_folder_content s replica)).2,
    (copyLoop
      (walk_folder_content (delete_extra_items_from_replica s source replica).1 replica)
      source replica (delete_extra_items_from_replica s source replica).1
      (walk_folder_content (delete_extra_items_from_replica s source replica).1 source)).2,
    ?_, ?_, ?_, rfl⟩
  · simp [syncCycle, delete_extra_items_from_replica, copy_new_from_source_to_replica]
  · exact (deleteLoop_facts _ _ _ _).2
  · exact (copyLoop_facts _ _ _ _ _).2

/-! Lookup and update lemmas for the tree model. -/

/-- Finding the upserted name returns the new node. -/
theorem Forest.find_upsert_self : ∀ (cs : Forest) (a : String) (v : Node),
    (cs.upsert a v).find a = some v
  | .nil, a, v => by simp [Forest.upsert, Forest.find]
  | .cons nm n rest, a, v => by
    by_cases h : nm = a <;>
      simp [Forest.upsert, Forest.find, h, Forest.find_upsert_self rest a v]

/-- Upserting one name leaves the other names' lookups unchanged. -/
theorem Forest.find_upsert_ne : ∀ (cs : Forest) (a b : String) (v : Node), b ≠ a →
    (cs.upsert a v).find b = cs.find b
  | .nil, a, b, v, h => by simp [Forest.upsert, Forest.find, Ne.symm h]
  | .cons nm n rest, a, b, v, h => by
    have hr := Forest.find_upsert_ne rest a b v h
    by_cases h1 : nm = a <;> by_cases h2 : nm = b <;>
      simp_all [Forest.upsert, Forest.find, Ne.symm h]

/-- Finding the mapped name returns the mapped node. -/
theorem Forest.find_mapAt_self : ∀ (cs : Forest) (a : String) (f : Node → Node),
    (cs.mapAt a f).find a = (cs.find a).map f
  | .nil, a, f => by simp [Forest.mapAt, Forest.find]
  | .cons nm n rest, a, f => by
    by_cases h : nm = a <;>
      simp [Forest.mapAt, Forest.find, h, Forest.find_mapAt_self rest a f]

/-- Mapping at one name leaves the other names' lookups unchanged. -/
theorem Forest.find_mapAt_ne : ∀ (cs : Forest) (a b : String) (f : Node → Node), b ≠ a →
    (cs.mapAt a f).find b = cs.find b
  | .nil, a, b, f, h => by simp [Forest.mapAt, Forest.find]
  | .cons nm n rest, a, b, f, h => by
    have hr := Forest.find_mapAt_ne rest a b f h
    by_cases h1 : nm = a <;> by_cases h2 : nm = b <;>
      simp_all [Forest.mapAt, Forest.find, Ne.symm h]

/-- Deleting a name removes it from lookups. -/
theorem Forest.find_del_self : ∀ (cs : Forest) (a : String), (cs.del a).find a = none
  | .nil, a => by simp [Forest.del, Forest.find]
  | .cons nm n rest, a => by
    by_cases h : nm = a <;> simp [Forest.del, Forest.find, h, Forest.find_del_self rest a]

/-- Deleting one name leaves the other names' lookups unchanged. -/
theorem Forest.find_del_ne : ∀ (cs : Forest) (a b : String), b ≠ a →
    (cs.del a).find b = cs.find b
  | .nil, a, b, h => by simp [Forest.del, Forest.find]
  | .cons nm n rest, a, b, h => by
    have hr := Forest.find_del_ne rest a b h
    by_cases h1 : nm = a <;> by_cases h2 : nm = b <;>
      simp_all [Forest.del, Forest.find, Ne.symm h]

/-- Unfolding equation of `setAt` on a nonempty tail. -/
theorem setAt_cons_ne_nil (cs : Forest) (b : String) (t : List String) (r : Node)
    (h : t ≠ []) :
    setAt (.dir cs) (b :: t) r = .dir (cs.mapAt b (fun n => setAt n t r)) := by
  cases t with
  | nil => exact absurd rfl h
  | cons c t' => rfl

/-- Unfolding equation of `removeAt` on a nonempty tail. -/
theorem removeAt_cons_ne_nil (cs : Forest) (b : String) (t : List String)
    (h : t ≠ []) :
    removeAt (.dir cs) (b :: t) = .dir (cs.mapAt b (fun n => removeAt n t)) := by
  cases t with
  | nil => exact absurd rfl h
  | cons c t' => rfl

/-- After `setAt` below an existing directory, looking the target path up
returns the stored node. -/
theorem lookup_setAt_self : ∀ (p : List String) (n : Node) (cs : Forest) (a : String)
    (r : Node), lookupNode n p = some (.dir cs) →
    lookupNode (setAt n (p ++ [a]) r) (p ++ [a]) = some r
  | [], n, cs, a, r, h => by
    cases n with
    | file c => simp [lookupNode] at h
    | dir cs0 =>
      simp only [lookupNode, Option.some.injEq, Node.dir.injEq] at h
      subst h
      simp [setAt, lookupNode, Forest.find_upsert_self]
  | b :: p', n, cs, a, r, h => by
    cases n with
    | file c => simp [lookupNode] at h
    | dir cs0 =>
      simp only [lookupNode] at h
      cases hf : cs0.find b with
      | none => rw [hf] at h; simp at h
      | some m =>
        rw [hf] at h
        rw [List.cons_append, setAt_cons_ne_nil cs0 b (p' ++ [a]) r (by simp)]
        simp only [lookupNode, Forest.find_mapAt_self, hf, Option.map_some]
        exact lookup_setAt_self p' m cs a r h

/-- `setAt` at a path leaves lookups of unrelated paths (neither an ancestor
nor a descendant of the target) unchanged. -/
theorem lookup_setAt_disjoint : ∀ (d q : List String) (n : Node) (r : Node),
    lePath d q = false → lePath q d = false →
    lookupNode (setAt n d r) q = lookupNode n q
  | [], q, n, r, h1, h2 => by simp [lePath] at h1
  | a :: d', [], n, r, h1, h2 => by simp [lePath] at h2
  | a :: d', b :: q', n, r, h1, h2 => by
    cases n with
    | file c => rfl
    | dir cs =>
      by_cases hab : a = b
      · subst hab
        have hd1 : lePath d' q' = false := by simpa [lePath] using h1
        have hd2 : lePath q' d' = false := by simpa [lePath] using h2
        cases d' with
        | nil => simp [lePath] at hd1
        | cons c d'' =>
          rw [setAt_cons_ne_nil cs a (c :: d'') r (by simp)]
          simp only [lookupNode, Forest.find_mapAt_self]
          cases hf : cs.find a with
          | none => simp
          | some m =>
            simp only [Option.map_some]
            exact lookup_setAt_disjoint (c :: d'') q' m r hd1 hd2
      · cases d' with
        | nil =>
          simp only [setAt, lookupNode]
          rw [Forest.find_upsert_ne cs a b r (Ne.symm hab)]
        | cons c d'' =>
          rw [setAt_cons_ne_nil cs a (c :: d'') r (by simp)]
          simp only [lookupNode]
          rw [Forest.find_mapAt_ne cs a b _ (Ne.symm hab)]

/-- Value of `calculate_md5` on an existing unlocked file. -/
theorem calculate_md5_file (s : Sys) (p : OsPath) (c : List Nat)
    (h1 : sLookup s p = some (.file c)) (h2 : resolve s p ∉ s.locked) :
    calculate_md5 s p = .ok (md5fold c) := by
  unfold calculate_md5
  unfold sLookup at h1
  simp [h1, h2]

/-- The state after storing bytes `c` as a file at path `d` (what a
successful `shutil.copy2` leaves behind; the write oracle is applied). -/
def overwriteFileAt (s : Sys) (d : List String) (c : List Nat) : Sys :=
  { s with root := setAt s.root d (.file (s.writeEffect d c)) }

/-- Value of `shutil_copy2` when the source is an existing unlocked file and
the destination is a fresh or plain-file path below an existing directory. -/
theorem copy2_ok (s : Sys) (src dst : OsPath) (c : List Nat) (pcs : Forest)
    (h1 : sLookup s src = some (.file c))
    (h2 : resolve s src ∉ s.locked)
    (h3 : isdirB s dst = false)
    (h4 : resolve s dst ≠ [])
    (h5 : lookupNode s.root (resolve s dst).dropLast = some (.dir pcs))
    (h6 : resolve s dst ∉ s.locked) :
    shutil_copy2 s src dst =
      .ok (overwriteFileAt s (resolve s dst) c,
        [.copiedFile (resolve s src) (resolve s dst)]) := by
  simp only [shutil_copy2]
  unfold sLookup at h1
  have h3' : ∀ cs2, lookupNode s.root (resolve s dst) ≠ some (.dir cs2) := by
    intro cs2 hc
    simp [isdirB, sLookup, hc] at h3
  have hdq : (match lookupNode s.root (resolve s dst) with
      | some (.dir _) => resolve s dst ++ [(resolve s src).getLastD ""]
      | _ => resolve s dst) = resolve s dst := by
    cases hl : lookupNode s.root (resolve s dst) with
    | none => rfl
    | some m =>
      cases m with
      | file c2 => rfl
      | dir cs2 => exact absurd hl (h3' cs2)
  rw [h1]
  simp only [hdq]
  cases hl : lookupNode s.root (resolve s dst) with
  | none => simp [h1, h2, hdq, h4, h5, h6, hl, overwriteFileAt]
  | some m =>
    cases m with
    | file c2 => simp [h1, h2, hdq, h4, h5, h6, hl, overwriteFileAt]
    | dir cs2 => exact absurd hl (h3' cs2)

/-- Claim C7: for a file copy performed by `copy_item` onto a fresh or
plain-file destination below an existing directory, the bytes stored at the
destination are digested and compared with the source's digest; equal
digests log the integrity-verified line and unequal digests log the
integrity-compromised line, and in both cases the call returns normally
with exactly this one copy and this one log line — the operation neither
fails nor raises and the copy is not retried. -/
theorem copy_item_file_verification (s : Sys) (sp rp : OsPath) (c : List Nat) (pcs : Forest)
    (h1 : sLookup s sp = some (.file c))
    (h2 : resolve s sp ∉ s.locked)
    (h3 : isdirB s rp = false)
    (h4 : resolve s rp ≠ [])
    (h5 : lookupNode s.root (resolve s rp).dropLast = some (.dir pcs))
    (h6 : resolve s rp ∉ s.locked)
    (hd1 : lePath (resolve s rp) (resolve s sp) = false)
    (hd2 : lePath (resolve s sp) (resolve s rp) = false) :
    copy_item s sp rp =
      (overwriteFileAt s (resolve s rp) c,
        [.callCopy sp rp, .copiedFile (resolve s sp) (resolve s rp),
          .log (if md5fold c = md5fold (s.writeEffect (resolve s rp) c)
            then .copiedVerified sp else .copiedCompromised sp)]) := by
  have hf : isfileB s sp = true := by simp [isfileB, h1]
  have hcopy := copy2_ok s sp rp c pcs h1 h2 h3 h4 h5 h6
  set s1 : Sys := overwriteFileAt s (resolve s rp) c with hs1
  have hres_sp : resolve s1 sp = resolve s sp := rfl
  have hres_rp : resolve s1 rp = resolve s rp := rfl
  have hlsp : sLookup s1 sp = some (.file c) := by
    unfold sLookup
    rw [hres_sp]
    show lookupNode (setAt s.root (resolve s rp) _) (resolve s sp) = _
    rw [lookup_setAt_disjoint (resolve s rp) (resolve s sp) s.root _ hd1 hd2]
    exact h1
  have hlrp : sLookup s1 rp = some (.file (s.writeEffect (resolve s rp) c)) := by
    unfold sLookup
    rw [hres_rp]
    show lookupNode (setAt s.root (resolve s rp) _) (resolve s rp) = _
    have hsplit : (resolve s rp).dropLast ++ [(resolve s rp).getLast h4] = resolve s rp :=
      List.dropLast_append_getLast h4
    rw [← hsplit]
    exact lookup_setAt_self (resolve s rp).dropLast s.root pcs _ _ h5
  have hmd1 : calculate_md5 s1 sp = .ok (md5fold c) :=
    calculate_md5_file s1 sp c hlsp h2
  have hmd2 : calculate_md5 s1 rp = .ok (md5fold (s.writeEffect (resolve s rp) c)) := by
    refine calculate_md5_file s1 rp _ hlrp ?_
    exact h6
  by_cases he : md5fold c = md5fold (s.writeEffect (resolve s rp) c) <;>
    simp [copy_item, hf, hcopy, ← hs1, hmd1, hmd2, he]

/-- Witness for C7, exercising the integrity-compromised branch through the
corrupting write oracle: the copy succeeds, the digests differ, the
compromised line is logged, and the call still returns normally. -/
theorem copy_item_file_verification_witness :
    copy_item sysCorrupt ⟨true, ["src", "a"]⟩ ⟨true, ["rep", "a"]⟩ =
      (overwriteFileAt sysCorrupt ["rep", "a"] [1],
        [.callCopy ⟨true, ["src", "a"]⟩ ⟨true, ["rep", "a"]⟩,
          .copiedFile ["src", "a"] ["rep", "a"],
          .log (.copiedCompromised ⟨true, ["src", "a"]⟩)]) := by
  rw [copy_item_file_verification sysCorrupt ⟨true, ["src", "a"]⟩ ⟨true, ["rep", "a"]⟩ [1] .nil
    (by decide) (by decide) (by decide)
    (by decide) (by decide) (by decide) (by decide) (by decide)]
  norm_num [sysCorrupt, md5fold, resolve, overwriteFileAt]

/-- Claim C3 (amended): a missing directory is indeed copied as a whole
subtree in one `copytree` call, but a file nested under the brand-new
directory is then copied a second time individually, because the copy
phase's replica listing was taken before the subtree copy; the second copy
overwrites the file with the same source bytes and verifies it, so for any
content the replica ends up correct, with the nested file's bytes written
twice per cycle rather than once. -/
theorem nested_new_dir_double_copy (c : List Nat) :
    (syncCycle (sysNestedFile c) pS pR).2 =
      [.walkCall pS, .walkCall pR, .walkCall pS, .walkCall pR,
        .callCopy ⟨true, ["src", "d"]⟩ ⟨true, ["rep", "d"]⟩,
        .treeCopied ["src", "d"] ["rep", "d"],
        .copiedFile ["src", "d", "x"] ["rep", "d", "x"],
        .log (.copiedTree ⟨true, ["src", "d"]⟩ ⟨true, ["rep", "d"]⟩),
        .callCopy ⟨true, ["src", "d", "x"]⟩ ⟨true, ["rep", "d", "x"]⟩,
        .copiedFile ["src", "d", "x"] ["rep", "d", "x"],
        .log (.copiedVerified ⟨true, ["src", "d", "x"]⟩)] ∧
      sLookup (syncCycle (sysNestedFile c) pS pR).1 ⟨true, ["rep", "d", "x"]⟩ =
        some (.file c) := by
  constructor <;>
    simp [syncCycle, delete_extra_items_from_replica, copy_new_from_source_to_replica,
      deleteLoop, copyLoop, walk_folder_content, walkEntries, walkSub, Forest.fileNames,
      Forest.dirNames, Node.isDirB, sysNestedFile, sLookup, resolve, isfileB, isdirB,
      lookupNode, Forest.find, copy_item, shutil_copy2, shutil_copytree, calculate_md5,
      setAt, mkdirsAt, canMakedirs, applyWE, applyWEF, filesUnder, osJoin, relOf,
      Forest.upsert, Forest.mapAt, md5fold, idWE, pS, pR, lockedUnder, lePath]

/-! Path-order lemmas. -/

/-- A list is a prefix of itself extended. -/
theorem lePath_append (d x : List String) : lePath d (d ++ x) = true := by
  induction d with
  | nil => rfl
  | cons a d' ih => simpa [lePath] using ih

/-- `lePath` is reflexive. -/
theorem lePath_refl (d : List String) : lePath d d = true := by
  simpa using lePath_append d []

/-- Shrinking the left argument preserves prefixhood. -/
theorem lePath_app_l : ∀ (a x b : List String), lePath (a ++ x) b = true →
    lePath a b = true
  | [], x, b, _ => rfl
  | c :: a', x, b, h => by
    cases b with
    | nil => simp [lePath] at h
    | cons e b' =>
      simp only [List.cons_append, lePath] at h ⊢
      by_cases hce : c = e
      · simp only [hce, if_true] at h ⊢
        exact lePath_app_l a' x b' h
      · simp [hce] at h

/-- A prefix of `b ++ x` is comparable with `b`. -/
theorem lePath_cases : ∀ (a b x : List String), lePath a (b ++ x) = true →
    lePath a b = true ∨ lePath b a = true
  | [], b, x, _ => Or.inl rfl
  | c :: a', b, x, h => by
    cases b with
    | nil => exact Or.inr rfl
    | cons e b' =>
      simp only [List.cons_append, lePath] at h ⊢
      by_cases hce : c = e
      · simp only [hce, if_true] at h ⊢
        exact lePath_cases a' b' x h
      · simp [hce] at h

/-- Prefixhood transfers along a shared stem. -/
theorem lePath_append_same : ∀ (r e m : List String),
    lePath (r ++ e) (r ++ m) = lePath e m
  | [], e, m => rfl
  | c :: r', e, m => by
    simp only [List.cons_append, lePath, if_pos rfl]
    exact lePath_append_same r' e m

/-- Prefixhood as an existential decomposition. -/
theorem lePath_iff_exists : ∀ (d q : List String),
    lePath d q = true ↔ ∃ t, q = d ++ t
  | [], q => by simp [lePath]
  | a :: d', q => by
    cases q with
    | nil =>
      constructor
      · intro h; simp [lePath] at h
      · rintro ⟨t, ht⟩; simp at ht
    | cons b q' =>
      by_cases hab : a = b
      · subst hab
        have hrec := lePath_iff_exists d' q'
        constructor
        · intro h
          rw [lePath, if_pos rfl] at h
          obtain ⟨t, rfl⟩ := hrec.mp h
          exact ⟨t, rfl⟩
        · rintro ⟨t, ht⟩
          rw [List.cons_append] at ht
          injection ht with h1 h2
          rw [lePath, if_pos rfl]
          exact hrec.mpr ⟨t, h2⟩
      · constructor
        · intro h
          rw [lePath, if_neg hab] at h
          exact absurd h (by simp)
        · rintro ⟨t, ht⟩
          rw [List.cons_append] at ht
          injection ht with h1 h2
          exact absurd h1.symm hab

/-- Only the empty list is a prefix of the empty list. -/
theorem lePath_nil_right : ∀ (q : List String), lePath q [] = true ↔ q = []
  | [] => by simp [lePath]
  | a :: q' => by simp [lePath]

/-- `lePath` is transitive. -/
theorem lePath_trans : ∀ (a b c : List String), lePath a b = true →
    lePath b c = true → lePath a c = true
  | [], _, _, _, _ => rfl
  | x :: a', b, c, h1, h2 => by
    cases b with
    | nil => simp [lePath] at h1
    | cons y b' =>
      cases c with
      | nil => simp [lePath] at h2
      | cons z c' =>
        by_cases hxy : x = y
        · subst hxy
          rw [lePath, if_pos rfl] at h1
          by_cases hxz : x = z
          · subst hxz
            rw [lePath, if_pos rfl] at h2 ⊢
            exact lePath_trans a' b' c' h1 h2
          · rw [lePath, if_neg hxz] at h2
            exact absurd h2 (by simp)
        · rw [lePath, if_neg hxy] at h1
          exact absurd h1 (by simp)

/-- The front of a list is a prefix of it. -/
theorem lePath_dropLast (d : List String) : lePath d.dropLast d = true := by
  cases hd : d.getLast? with
  | none => rw [List.getLast?_eq_none_iff.mp hd]; rfl
  | some a =>
    have h := List.dropLast_append_getLast? a hd
    have h2 := lePath_append d.dropLast [a]
    rwa [h] at h2

/-- Two paths disjoint from each other stay disjoint after extending the
second one. -/
theorem lePath_disjoint_append (S R m : List String)
    (h1 : lePath S R = false) (h2 : lePath R S = false) :
    lePath S (R ++ m) = false ∧ lePath (R ++ m) S = false := by
  constructor
  · cases h : lePath S (R ++ m) with
    | false => rfl
    | true =>
      rcases lePath_cases S R m h with hc | hc
      · rw [hc] at h1; exact h1
      · rw [hc] at h2; exact h2
  · cases h : lePath (R ++ m) S with
    | false => rfl
    | true =>
      rw [lePath_app_l R m S h] at h2
      exact h2

/-! Lookup decomposition lemmas. -/

/-- Path lookup decomposes along concatenation. -/
theorem lookupNode_append : ∀ (p q : List String) (n : Node),
    lookupNode n (p ++ q) = (lookupNode n p).bind (fun m => lookupNode m q)
  | [], q, n => by simp [lookupNode]
  | a :: p', q, n => by
    cases n with
    | file c => simp [lookupNode]
    | dir cs =>
      simp only [List.cons_append, lookupNode]
      cases cs.find a with
      | none => simp
      | some m => simpa using lookupNode_append p' q m

/-- An entry with a nonempty path below `p` forces a directory at `p`. -/
theorem ancestor_dir (n : Node) (p t : List String) (ht : t ≠ [])
    (h : (lookupNode n (p ++ t)).isSome = true) :
    ∃ cs, lookupNode n p = some (.dir cs) := by
  rw [lookupNode_append] at h
  cases hp : lookupNode n p with
  | none => rw [hp] at h; simp at h
  | some m =>
    rw [hp] at h
    cases m with
    | file c =>
      cases t with
      | nil => exact absurd rfl ht
      | cons a t' => simp [lookupNode] at h
    | dir cs => exact ⟨cs, rfl⟩

/-! Forest bookkeeping lemmas. -/

/-- A name is found exactly when it is present. -/
theorem Forest.find_isSome : ∀ (cs : Forest) (a : String),
    (cs.find a).isSome = cs.hasName a
  | .nil, a => rfl
  | .cons nm n rest, a => by
    by_cases h : nm = a <;>
      simp [Forest.find, Forest.hasName, h, Forest.find_isSome rest a]

/-- Deleting a name can only remove names. -/
theorem Forest.hasName_del_imp : ∀ (cs : Forest) (a b : String),
    (cs.del a).hasName b = true → cs.hasName b = true
  | .nil, a, b, h => h
  | .cons nm n rest, a, b, h => by
    by_cases h1 : nm = a
    · rw [Forest.del, if_pos h1] at h
      by_cases h2 : nm = b <;>
        simp [Forest.hasName, h2, Forest.hasName_del_imp rest a b h]
    · rw [Forest.del, if_neg h1] at h
      by_cases h2 : nm = b
      · simp [Forest.hasName, h2]
      · rw [Forest.hasName, if_neg h2] at h ⊢
        exact Forest.hasName_del_imp rest a b h

/-- Mapping at a name does not change which names are present. -/
theorem Forest.hasName_mapAt : ∀ (cs : Forest) (a b : String) (f : Node → Node),
    (cs.mapAt a f).hasName b = cs.hasName b
  | .nil, a, b, f => rfl
  | .cons nm n rest, a, b, f => by
    by_cases h1 : nm = a
    · simp only [Forest.mapAt, if_pos h1, Forest.hasName]
      by_cases h2 : nm = b
      · simp [h2]
      · simp [h2, Forest.hasName_mapAt rest a b f]
    · simp only [Forest.mapAt, if_neg h1, Forest.hasName]
      by_cases h2 : nm = b
      · simp [h2]
      · simp [h2, Forest.hasName_mapAt rest a b f]

/-- The names present after an upsert. -/
theorem Forest.hasName_upsert : ∀ (cs : Forest) (a b : String) (v : Node),
    (cs.upsert a v).hasName b = (cs.hasName b || decide (b = a))
  | .nil, a, b, v => by
    simp only [Forest.upsert, Forest.hasName]
    by_cases h : b = a
    · simp [h]
    · have hab : ¬a = b := fun hc => h hc.symm
      simp [h, hab]
  | .cons nm n rest, a, b, v => by
    by_cases h1 : nm = a
    · simp only [Forest.upsert, if_pos h1, Forest.hasName]
      by_cases h2 : nm = b
      · simp [h2]
      · have hba : ¬b = a := fun hh => h2 (h1.trans hh.symm)
        simp [h2, hba]
    · simp only [Forest.upsert, if_neg h1, Forest.hasName]
      by_cases h2 : nm = b
      · simp [h2]
      · simp [h2, Forest.hasName_upsert rest a b v]

/-- A found child of a well-formed forest is well-formed. -/
theorem Forest.wf_find : ∀ (cs : Forest) (a : String) (m : Node),
    cs.wfB = true → cs.find a = some m → m.wfB = true
  | .nil, a, m, hw, h => by simp [Forest.find] at h
  | .cons nm n rest, a, m, hw, h => by
    simp only [Forest.wfB, Bool.and_eq_true] at hw
    by_cases h1 : nm = a
    · rw [Forest.find, if_pos h1, Option.some.injEq] at h
      rw [← h]
      exact hw.1.2
    · rw [Forest.find, if_neg h1] at h
      exact Forest.wf_find rest a m hw.2 h

/-- Mapping a function over the unique occurrence of a name with no effect
leaves the forest unchanged. -/
theorem Forest.mapAt_absent : ∀ (cs : Forest) (a : String) (f : Node → Node),
    cs.hasName a = false → cs.mapAt a f = cs
  | .nil, a, f, h => rfl
  | .cons nm n rest, a, f, h => by
    by_cases h1 : nm = a
    · rw [Forest.hasName, if_pos h1] at h
      exact absurd h (by simp)
    · rw [Forest.hasName, if_neg h1] at h
      rw [Forest.mapAt, if_neg h1, Forest.mapAt_absent rest a f h]

/-! Well-formedness preservation. -/

/-- Deletion preserves well-formedness. -/
theorem Forest.wfB_del : ∀ (cs : Forest) (a : String), cs.wfB = true →
    (cs.del a).wfB = true
  | .nil, a, h => rfl
  | .cons nm n rest, a, h => by
    simp only [Forest.wfB, Bool.and_eq_true, Bool.not_eq_true'] at h
    by_cases h1 : nm = a
    · rw [Forest.del, if_pos h1]
      exact Forest.wfB_del rest a h.2
    · rw [Forest.del, if_neg h1]
      simp only [Forest.wfB, Bool.and_eq_true, Bool.not_eq_true']
      refine ⟨⟨?_, h.1.2⟩, Forest.wfB_del rest a h.2⟩
      cases hdel : (rest.del a).hasName nm with
      | false => rfl
      | true => rw [Forest.hasName_del_imp rest a nm hdel] at h; exact h.1.1

/-- Upserting a well-formed node preserves well-formedness. -/
theorem Forest.wfB_upsert : ∀ (cs : Forest) (a : String) (v : Node),
    cs.wfB = true → v.wfB = true → (cs.upsert a v).wfB = true
  | .nil, a, v, h, hv => by
    simp [Forest.upsert, Forest.wfB, Forest.hasName, hv]
  | .cons nm n rest, a, v, h, hv => by
    simp only [Forest.wfB, Bool.and_eq_true, Bool.not_eq_true'] at h
    by_cases h1 : nm = a
    · rw [Forest.upsert, if_pos h1]
      simp [Forest.wfB, h.1.1, h.2, hv]
    · rw [Forest.upsert, if_neg h1]
      simp only [Forest.wfB, Bool.and_eq_true, Bool.not_eq_true']
      refine ⟨⟨?_, h.1.2⟩, Forest.wfB_upsert rest a v h.2 hv⟩
      rw [Forest.hasName_upsert rest a nm v, h.1.1]
      simp [h1]

/-- Mapping a well-formedness-preserving function preserves
well-formedness. -/
theorem Forest.wfB_mapAt : ∀ (cs : Forest) (a : String) (f : Node → Node),
    (∀ m, m.wfB = true → (f m).wfB = true) → cs.wfB = true →
    (cs.mapAt a f).wfB = true
  | .nil, a, f, hf, h => rfl
  | .cons nm n rest, a, f, hf, h => by
    simp only [Forest.wfB, Bool.and_eq_true, Bool.not_eq_true'] at h
    by_cases h1 : nm = a
    · rw [Forest.mapAt, if_pos h1]
      simp only [Forest.wfB, Bool.and_eq_true, Bool.not_eq_true']
      exact ⟨⟨by rw [Forest.hasName_mapAt]; exact h.1.1, hf n h.1.2⟩,
        Forest.wfB_mapAt rest a f hf h.2⟩
    · rw [Forest.mapAt, if_neg h1]
      simp only [Forest.wfB, Bool.and_eq_true, Bool.not_eq_true']
      exact ⟨⟨by rw [Forest.hasName_mapAt]; exact h.1.1, h.1.2⟩,
        Forest.wfB_mapAt rest a f hf h.2⟩

/-- Removal preserves well-formedness. -/
theorem wfB_removeAt : ∀ (d : List String) (n : Node), n.wfB = true →
    (removeAt n d).wfB = true
  | [], n, h => by simp only [removeAt]; exact h
  | _ :: _, .file c, _ => rfl
  | [a], .dir cs, h => Forest.wfB_del cs a h
  | a :: b :: p, .dir cs, h =>
    Forest.wfB_mapAt cs a _ (fun m hm => wfB_removeAt (b :: p) m hm) h

/-- Overwriting with a well-formed node preserves well-formedness. -/
theorem wfB_setAt : ∀ (d : List String) (n r : Node), n.wfB = true →
    r.wfB = true → (setAt n d r).wfB = true
  | [], n, r, _, hr => by simp only [setAt]; exact hr
  | _ :: _, .file c, _, _, _ => rfl
  | [a], .dir cs, r, h, hr => Forest.wfB_upsert cs a r h hr
  | a :: b :: p, .dir cs, r, h, hr =>
    Forest.wfB_mapAt cs a _ (fun m hm => wfB_setAt (b :: p) m r hm hr) h

/-- Creating directories preserves well-formedness. -/
theorem wfB_mkdirsAt : ∀ (t : List String) (n : Node), n.wfB = true →
    (mkdirsAt n t).wfB = true
  | [], n, h => by simp only [mkdirsAt]; exact h
  | _ :: _, .file c, _ => rfl
  | a :: p, .dir cs, h => by
    rw [mkdirsAt]
    cases hf : cs.find a with
    | some m =>
      exact Forest.wfB_mapAt cs a _ (fun m hm => wfB_mkdirsAt p m hm) h
    | none =>
      exact Forest.wfB_upsert cs a _ h (wfB_mkdirsAt p (.dir .nil) rfl)

/-- The write oracle does not change which names are present. -/
theorem applyWEF_hasName : ∀ (cs : Forest) (we : List String → List Nat → List Nat)
    (b : List String) (a : String), (applyWEF we b cs).hasName a = cs.hasName a
  | .nil, we, b, a => rfl
  | .cons nm n rest, we, b, a => by
    by_cases h : nm = a <;>
      simp [applyWEF, Forest.hasName, h, applyWEF_hasName rest we b a]

mutual

/-- The write oracle preserves node well-formedness. -/
theorem wfB_applyWE : ∀ (n : Node) (we : List String → List Nat → List Nat)
    (b : List String), n.wfB = true → (applyWE we b n).wfB = true
  | .file c, we, b, h => rfl
  | .dir cs, we, b, h => wfB_applyWEF cs we b h

/-- The write oracle preserves forest well-formedness. -/
theorem wfB_applyWEF : ∀ (cs : Forest) (we : List String → List Nat → List Nat)
    (b : List String), cs.wfB = true → (applyWEF we b cs).wfB = true
  | .nil, we, b, h => rfl
  | .cons nm n rest, we, b, h => by
    simp only [Forest.wfB, Bool.and_eq_true, Bool.not_eq_true'] at h
    simp only [applyWEF, Forest.wfB, Bool.and_eq_true, Bool.not_eq_true']
    exact ⟨⟨by rw [applyWEF_hasName]; exact h.1.1, wfB_applyWE n we (b ++ [nm]) h.1.2⟩,
      wfB_applyWEF rest we b h.2⟩

end

/-- Child lookup after the write oracle. -/
theorem find_applyWEF : ∀ (cs : Forest) (a : String)
    (we : List String → List Nat → List Nat) (b : List String),
    (applyWEF we b cs).find a = (cs.find a).map (fun m => applyWE we (b ++ [a]) m)
  | .nil, a, we, b => rfl
  | .cons nm n rest, a, we, b => by
    by_cases h : nm = a
    · subst h
      simp [applyWEF, Forest.find]
    · simp [applyWEF, Forest.find, h, find_applyWEF rest a we b]

/-- Path lookup after the write oracle. -/
theorem lookup_applyWE : ∀ (q : List String) (n : Node)
    (we : List String → List Nat → List Nat) (b : List String),
    lookupNode (applyWE we b n) q =
      (lookupNode n q).map (fun m => applyWE we (b ++ q) m)
  | [], n, we, b => by simp [lookupNode]
  | a :: q', n, we, b => by
    cases n with
    | file c => simp [applyWE, lookupNode]
    | dir cs =>
      simp only [applyWE, lookupNode, find_applyWEF]
      cases hf : cs.find a with
      | none => simp
      | some m => simp [lookup_applyWE q' m we (b ++ [a]), List.append_assoc]

/-- The write oracle preserves entry kinds. -/
theorem kind_applyWE (n : Node) (we : List String → List Nat → List Nat)
    (b : List String) : (applyWE we b n).kind = n.kind := by
  cases n <;> rfl

/-! Bridge between the walk listing and path lookup. -/

/-- A name occurs in the level listing exactly when a child carries it. -/
theorem names_mem_iff : ∀ (cs : Forest) (a : String),
    a ∈ cs.fileNames ++ cs.dirNames ↔ cs.hasName a = true
  | .nil, a => by simp [Forest.fileNames, Forest.dirNames, Forest.hasName]
  | .cons nm n rest, a => by
    have ih := names_mem_iff rest a
    by_cases h : nm = a
    · cases hd : n.isDirB <;>
        simp [Forest.fileNames, Forest.dirNames, Forest.hasName, hd, h, List.mem_append]
    · have h' : ¬a = nm := fun hh => h hh.symm
      have ih' : a ∈ rest.fileNames ∨ a ∈ rest.dirNames ↔ rest.hasName a = true := by
        simpa [List.mem_append] using ih
      cases hd : n.isDirB <;>
        simp [Forest.fileNames, Forest.dirNames, Forest.hasName, hd, h, h',
          List.mem_append, ih']

/-- Every walk-sub entry's head names a child. -/
theorem walkSub_hasName : ∀ (cs : Forest) (a : String) (e : List String),
    (a :: e) ∈ walkSub cs → cs.hasName a = true
  | .nil, a, e, h => by simp [walkSub] at h
  | .cons nm n rest, a, e, h => by
    rw [walkSub, List.mem_append] at h
    rcases h with h | h
    · cases hd : n.isDirB <;> rw [hd] at h
      · simp at h
      · have h' : a :: e ∈ (walkEntries n).map (fun e => nm :: e) := by simpa using h
        simp only [List.mem_map] at h'
        obtain ⟨x, _, hx⟩ := h'
        injection hx with h1 h2
        simp [Forest.hasName, h1]
    · have := walkSub_hasName rest a e h
      by_cases h1 : nm = a <;> simp [Forest.hasName, h1, this]

/-- Walk-sub entries are nonempty paths. -/
theorem walkSub_ne_nil : ∀ (cs : Forest) (x : List String),
    x ∈ walkSub cs → x ≠ []
  | .nil, x, h => by simp [walkSub] at h
  | .cons nm n rest, x, h => by
    rw [walkSub, List.mem_append] at h
    rcases h with h | h
    · cases hd : n.isDirB <;> rw [hd] at h
      · simp at h
      · have h' : x ∈ (walkEntries n).map (fun e => nm :: e) := by simpa using h
        simp only [List.mem_map] at h'
        obtain ⟨y, _, hy⟩ := h'
        rw [← hy]
        simp
    · exact walkSub_ne_nil rest x h

mutual

/-- An entry is walked exactly when it is a nonempty path present in the
tree (well-formedness makes names unambiguous). -/
theorem mem_walkEntries : ∀ (n : Node), n.wfB = true → ∀ (e : List String),
    e ∈ walkEntries n ↔ e ≠ [] ∧ (lookupNode n e).isSome = true
  | .file c, hw, e => by cases e <;> simp [walkEntries, lookupNode]
  | .dir cs, hw, e => by
    cases e with
    | nil =>
      constructor
      · intro h
        rw [walkEntries, List.mem_append] at h
        rcases h with h | h
        · simp only [List.mem_map] at h
          obtain ⟨x, _, hx⟩ := h
          exact absurd hx (by simp)
        · exact absurd rfl (walkSub_ne_nil cs [] h)
      · rintro ⟨h, _⟩
        exact absurd rfl h
    | cons a e' =>
      have hw' : cs.wfB = true := hw
      have hsub := mem_walkSub cs hw' a e'
      have hchunk1 : (a :: e' ∈ (cs.fileNames ++ cs.dirNames).map (fun a => [a])) ↔
          (e' = [] ∧ cs.hasName a = true) := by
        simp only [List.mem_map]
        constructor
        · rintro ⟨x, hx, hxe⟩
          injection hxe with h1 h2
          subst h1
          exact ⟨h2.symm, (names_mem_iff cs x).mp hx⟩
        · rintro ⟨he, hname⟩
          exact ⟨a, (names_mem_iff cs a).mpr hname, by rw [he]⟩
      rw [walkEntries, List.mem_append, hchunk1, hsub]
      cases hf : cs.find a with
      | none =>
        have hlk : lookupNode (Node.dir cs) (a :: e') = none := by simp [lookupNode, hf]
        have hname : cs.hasName a = false := by rw [← Forest.find_isSome, hf]; rfl
        rw [hlk]
        constructor
        · rintro (⟨_, hn⟩ | ⟨m, hm, _⟩)
          · rw [hname] at hn; exact absurd hn (by simp)
          · exact absurd hm (by simp)
        · rintro ⟨_, hsome⟩
          exact absurd hsome (by simp)
      | some m =>
        have hlk : lookupNode (Node.dir cs) (a :: e') = lookupNode m e' := by
          simp [lookupNode, hf]
        have hname : cs.hasName a = true := by rw [← Forest.find_isSome, hf]; rfl
        rw [hlk]
        constructor
        · rintro (⟨he, _⟩ | ⟨m2, hm2, hdir2, hne2, hsome2⟩)
          · subst he
            exact ⟨by simp, by simp [lookupNode]⟩
          · injection hm2 with hm2
            subst hm2
            exact ⟨by simp, hsome2⟩
        · rintro ⟨_, hsome⟩
          cases he' : e' with
          | nil =>
            left
            exact ⟨rfl, hname⟩
          | cons b e'' =>
            right
            subst he'
            refine ⟨m, rfl, ?_, by simp, hsome⟩
            cases m with
            | file cf => simp [lookupNode] at hsome
            | dir cs2 => rfl

/-- Characterization of walk-sub membership by child lookup. -/
theorem mem_walkSub : ∀ (cs : Forest), cs.wfB = true → ∀ (a : String) (e : List String),
    a :: e ∈ walkSub cs ↔
      ∃ m, cs.find a = some m ∧ m.isDirB = true ∧ e ≠ [] ∧
        (lookupNode m e).isSome = true
  | .nil, hw, a, e => by simp [walkSub, Forest.find]
  | .cons nm n rest, hw, a, e => by
    have hwp : (!(rest.hasName nm) && n.wfB && rest.wfB) = true := hw
    simp only [Bool.and_eq_true, Bool.not_eq_true'] at hwp
    obtain ⟨⟨hnm, hn⟩, hrest⟩ := hwp
    rw [walkSub, List.mem_append]
    by_cases hna : nm = a
    · subst hna
      constructor
      · rintro (h | h)
        · cases hd : n.isDirB
          · rw [hd] at h
            simp at h
          · rw [hd] at h
            have h' : nm :: e ∈ (walkEntries n).map (fun e => nm :: e) := by simpa using h
            simp only [List.mem_map] at h'
            obtain ⟨x, hx, hxe⟩ := h'
            injection hxe with h1 h2
            subst h2
            obtain ⟨hne, hsome⟩ := (mem_walkEntries n hn x).mp hx
            exact ⟨n, by rw [Forest.find, if_pos rfl], hd, hne, hsome⟩
        · have hh := walkSub_hasName rest nm e h
          rw [hh] at hnm
          exact absurd hnm (by simp)
      · rintro ⟨m, hfind, hdir, hne, hsome⟩
        rw [Forest.find, if_pos rfl, Option.some.injEq] at hfind
        subst hfind
        left
        rw [if_pos hdir]
        exact List.mem_map.mpr ⟨e, (mem_walkEntries n hn e).mpr ⟨hne, hsome⟩, rfl⟩
    · have hside : (a :: e ∈ (if n.isDirB = true then
          (walkEntries n).map (fun e => nm :: e) else [])) → False := by
        intro h
        cases hd : n.isDirB
        · rw [hd] at h
          simp at h
        · rw [hd] at h
          have h' : a :: e ∈ (walkEntries n).map (fun e => nm :: e) := by simpa using h
          simp only [List.mem_map] at h'
          obtain ⟨x, _, hxe⟩ := h'
          injection hxe with h1 h2
          exact hna h1
      rw [Forest.find, if_neg hna]
      constructor
      · rintro (h | h)
        · exact absurd h hside
        · exact (mem_walkSub rest hrest a e).mp h
      · intro h
        right
        exact (mem_walkSub rest hrest a e).mpr h

end

/-- The kind of the entry at a path, if any. -/
def kindOf (n : Node) (q : List String) : Option Kind :=
  (lookupNode n q).map Node.kind

/-- Effect of `removeAt` on entry kinds: everything at or below the removed
path is gone, every other path keeps its kind. -/
theorem removeAt_kind : ∀ (d q : List String) (n : Node), d ≠ [] →
    kindOf (removeAt n d) q = if lePath d q = true then none else kindOf n q
  | [], q, n, hd => absurd rfl hd
  | [a], q, n, _ => by
    cases n with
    | file c =>
      cases q with
      | nil => simp [removeAt, lePath]
      | cons b q' => simp [removeAt, kindOf, lookupNode]
    | dir cs =>
      cases q with
      | nil => simp [removeAt, lePath, kindOf, lookupNode, Node.kind]
      | cons b q' =>
        by_cases hab : a = b
        · subst hab
          simp [removeAt, kindOf, lookupNode, Forest.find_del_self, lePath]
        · rw [removeAt]
          have hne : b ≠ a := fun hh => hab hh.symm
          simp only [kindOf, lookupNode, Forest.find_del_ne cs a b hne]
          rw [if_neg]
          simp [lePath, hab]
  | a :: b :: p, q, n, _ => by
    cases n with
    | file c =>
      cases q with
      | nil => simp [removeAt, lePath]
      | cons x q' => simp [removeAt, kindOf, lookupNode]
    | dir cs =>
      cases q with
      | nil => simp [removeAt, lePath, kindOf, lookupNode, Node.kind]
      | cons x q' =>
        by_cases hax : a = x
        · subst hax
          rw [removeAt]
          simp only [kindOf, lookupNode, Forest.find_mapAt_self]
          have hle : lePath (a :: b :: p) (a :: q') = lePath (b :: p) q' := by
            simp [lePath]
          rw [hle]
          cases hf : cs.find a with
          | none => simp
          | some m =>
            simp only [Option.map_some]
            have ih := removeAt_kind (b :: p) q' m (by simp)
            simp only [kindOf] at ih
            exact ih
        · rw [removeAt]
          have hne : x ≠ a := fun hh => hax hh.symm
          simp only [kindOf, lookupNode, Forest.find_mapAt_ne cs a x _ hne]
          rw [if_neg]
          simp [lePath, hax]

/-- `removeAt` leaves unrelated paths' nodes untouched. -/
theorem removeAt_disjoint : ∀ (d q : List String) (n : Node),
    lePath d q = false → lePath q d = false →
    lookupNode (removeAt n d) q = lookupNode n q
  | [], q, n, h1, h2 => by simp [lePath] at h1
  | a :: d', [], n, h1, h2 => by simp [lePath] at h2
  | a :: d', b :: q', n, h1, h2 => by
    cases n with
    | file c => cases d' <;> rfl
    | dir cs =>
      by_cases hab : a = b
      · subst hab
        have hd1 : lePath d' q' = false := by simpa [lePath] using h1
        have hd2 : lePath q' d' = false := by simpa [lePath] using h2
        cases d' with
        | nil => simp [lePath] at hd1
        | cons c d'' =>
          rw [removeAt]
          simp only [lookupNode, Forest.find_mapAt_self]
          cases hf : cs.find a with
          | none => simp
          | some m =>
            simp only [Option.map_some]
            exact removeAt_disjoint (c :: d'') q' m hd1 hd2
      · have hne : b ≠ a := fun hh => hab hh.symm
        cases d' with
        | nil =>
          rw [removeAt]
          simp only [lookupNode, Forest.find_del_ne cs a b hne]
        | cons c d'' =>
          rw [removeAt]
          simp only [lookupNode, Forest.find_mapAt_ne cs a b _ hne]

/-- Every component that already exists along the path is a directory
(including the final one). -/
def dirChainOk : Node → List String → Bool
  | _, [] => true
  | .file _, _ :: _ => false
  | .dir cs, a :: p =>
    match cs.find a with
    | some m => m.isDirB && dirChainOk m p
    | none => true

/-- A makedirs-feasible path whose endpoint does not exist has a fully
directory-kinded existing chain up to its parent. -/
theorem canMakedirs_chainOk : ∀ (d : List String) (n : Node),
    canMakedirs n d = true → lookupNode n d = none →
    dirChainOk n d.dropLast = true
  | [], n, hc, hl => by simp [lookupNode] at hl
  | [a], n, hc, hl => by simp [dirChainOk]
  | a :: b :: p, n, hc, hl => by
    cases n with
    | file c => simp [canMakedirs] at hc
    | dir cs =>
      rw [canMakedirs] at hc
      rw [lookupNode] at hl
      show dirChainOk (.dir cs) (a :: (b :: p).dropLast) = true
      rw [dirChainOk]
      cases hf : cs.find a with
      | none => simp [hf]
      | some m =>
        simp only [hf] at hc hl ⊢
        have hdir : m.isDirB = true := by
          cases m with
          | file c2 => simp [canMakedirs] at hc
          | dir cs2 => rfl
        have ih := canMakedirs_chainOk (b :: p) m hc hl
        simp [hdir, ih]

/-- An empty directory has a trivially valid chain. -/
theorem chainOk_emptyDir : ∀ (t : List String), dirChainOk (.dir .nil) t = true
  | [] => rfl
  | a :: p => by simp [dirChainOk, Forest.find]

/-- `mkdirsAt` materializes its whole path as a directory. -/
theorem mkdirs_creates : ∀ (t : List String) (n : Node), n.isDirB = true →
    dirChainOk n t = true →
    ∃ cs', lookupNode (mkdirsAt n t) t = some (.dir cs')
  | [], n, hd, hc => by
    cases n with
    | file c => simp [Node.isDirB] at hd
    | dir cs => exact ⟨cs, by simp [mkdirsAt, lookupNode]⟩
  | a :: p, n, hd, hc => by
    cases n with
    | file c => simp [Node.isDirB] at hd
    | dir cs =>
      rw [mkdirsAt]
      rw [dirChainOk] at hc
      cases hf : cs.find a with
      | none =>
        obtain ⟨cs', hcs'⟩ := mkdirs_creates p (.dir .nil) rfl (chainOk_emptyDir p)
        exact ⟨cs', by simp [lookupNode, Forest.find_upsert_self, hcs']⟩
      | some m =>
        rw [hf] at hc
        simp only [Bool.and_eq_true] at hc
        obtain ⟨cs', hcs'⟩ := mkdirs_creates p m hc.1 hc.2
        refine ⟨cs', ?_⟩
        simp [lookupNode, Forest.find_mapAt_self, hf, hcs']

/-- `mkdirsAt` touches only prefixes of its path: the lookup of any path
that is not a prefix of it is unchanged. -/
theorem mkdirs_outside : ∀ (t q : List String) (n : Node), lePath q t = false →
    lookupNode (mkdirsAt n t) q = lookupNode n q
  | [], q, n, h => by simp [mkdirsAt]
  | a :: p, q, n, h => by
    cases n with
    | file c => cases q <;> rfl
    | dir cs =>
      cases q with
      | nil => simp [lePath] at h
      | cons b q' =>
        rw [mkdirsAt]
        by_cases hba : b = a
        · subst hba
          have h' : lePath q' p = false := by simpa [lePath] using h
          cases hf : cs.find b with
          | none =>
            simp only [lookupNode, Forest.find_upsert_self, hf]
            rw [mkdirs_outside p q' (.dir .nil) h']
            cases q' with
            | nil => simp [lePath] at h'
            | cons x q'' => simp [lookupNode, Forest.find]
          | some m =>
            simp only [lookupNode, Forest.find_mapAt_self, hf, Option.map_some]
            exact mkdirs_outside p q' m h'
        · have hne : b ≠ a := hba
          cases hf : cs.find a with
          | none => simp only [lookupNode, Forest.find_upsert_ne cs a b _ hne]
          | some m => simp only [lookupNode, Forest.find_mapAt_ne cs a b _ hne]

/-- The log line of a caught copy error is a failure log. -/
theorem isFailLog_copyErr (e : OsErr) (p : OsPath) :
    isFailLog (.log (copyErrLog e p)) = true := by
  cases e <;> rfl

/-- The log line of a caught delete error is a failure log. -/
theorem isFailLog_deleteErr (e : OsErr) (p : OsPath) :
    isFailLog (.log (deleteErrLog e p)) = true := by
  cases e <;> rfl

/-- The state after a whole-subtree copy to path `d` (what a successful
`shutil.copytree` leaves behind). -/
def treeCopiedState (s : Sys) (d : List String) (cs : Forest) : Sys :=
  { s with root := setAt (mkdirsAt s.root d.dropLast) d (applyWE s.writeEffect d (.dir cs)) }

/-- The two possible result states of `delete_item`. -/
theorem delete_item_state (s : Sys) (p : OsPath) :
    (delete_item s p).1 = s ∨
      (delete_item s p).1 = { s with root := removeAt s.root (resolve s p) } := by
  rcases hsl : sLookup s p with _ | n
  · rw [(delete_item_cases s p).1 hsl]
    exact Or.inl rfl
  · cases n with
    | file c =>
      by_cases hl : resolve s p ∈ s.locked
      · rw [(delete_item_cases s p).2.2.1 c hsl hl]
        exact Or.inl rfl
      · rw [(delete_item_cases s p).2.1 c hsl hl]
        exact Or.inr rfl
    | dir cs =>
      cases hl : lockedUnder s (resolve s p)
      · rw [(delete_item_cases s p).2.2.2.1 cs hsl hl]
        exact Or.inr rfl
      · rw [(delete_item_cases s p).2.2.2.2 cs hsl hl]
        exact Or.inl rfl

/-- A failure-free `delete_item` either removed the entry or found nothing
to remove. -/
theorem delete_item_nofail (s : Sys) (p : OsPath)
    (hnf : noFailure (delete_item s p).2 = true) :
    (delete_item s p).1 = { s with root := removeAt s.root (resolve s p) } ∨
      ((delete_item s p).1 = s ∧ sLookup s p = none) := by
  rcases hsl : sLookup s p with _ | n
  · rw [(delete_item_cases s p).1 hsl]
    exact Or.inr ⟨rfl, rfl⟩
  · cases n with
    | file c =>
      by_cases hl : resolve s p ∈ s.locked
      · rw [(delete_item_cases s p).2.2.1 c hsl hl] at hnf
        simp [noFailure, isFailLog] at hnf
      · rw [(delete_item_cases s p).2.1 c hsl hl]
        exact Or.inl rfl
    | dir cs =>
      cases hl : lockedUnder s (resolve s p)
      · rw [(delete_item_cases s p).2.2.2.1 cs hsl hl]
        exact Or.inl rfl
      · rw [(delete_item_cases s p).2.2.2.2 cs hsl hl] at hnf
        simp [noFailure, isFailLog] at hnf

/-- `delete_item` changes only the filesystem tree. -/
theorem delete_item_fields (s : Sys) (p : OsPath) :
    (delete_item s p).1.cwd = s.cwd ∧ (delete_item s p).1.locked = s.locked ∧
      (delete_item s p).1.writeEffect = s.writeEffect := by
  rcases delete_item_state s p with h | h <;> rw [h] <;> exact ⟨rfl, rfl, rfl⟩

/-- A successful `shutil_copy2` onto a non-directory destination: what must
have held and what it produced. -/
theorem copy2_ok_inv {s : Sys} {src dst : OsPath} {s1 : Sys} {evs : List Ev}
    (hnd : ∀ cs2, lookupNode s.root (resolve s dst) ≠ some (.dir cs2))
    (h : shutil_copy2 s src dst = .ok (s1, evs)) :
    ∃ c, lookupNode s.root (resolve s src) = some (.file c) ∧
      resolve s dst ≠ [] ∧
      (∃ pcs, lookupNode s.root (resolve s dst).dropLast = some (.dir pcs)) ∧
      s1 = overwriteFileAt s (resolve s dst) c ∧
      evs = [.copiedFile (resolve s src) (resolve s dst)] := by
  simp only [shutil_copy2] at h
  cases hdst0 : lookupNode s.root (resolve s dst) with
  | some m0 =>
    cases m0 with
    | dir cs0 => exact absurd hdst0 (hnd cs0)
    | file c0 =>
      cases hsrc : lookupNode s.root (resolve s src) with
      | none =>
        simp only [hsrc] at h
        exact absurd h (by simp)
      | some m =>
        cases m with
        | dir cs2 =>
          simp only [hsrc] at h
          exact absurd h (by simp)
        | file c =>
          simp only [hsrc] at h
          by_cases hl1 : resolve s src ∈ s.locked
          · rw [if_pos hl1] at h
            exact absurd h (by simp)
          · rw [if_neg hl1] at h
            by_cases hz : resolve s dst = []
            · rw [if_pos hz] at h
              exact absurd h (by simp)
            · rw [if_neg hz] at h
              cases hpar : lookupNode s.root (resolve s dst).dropLast with
              | none =>
                simp only [hpar] at h
                exact absurd h (by simp)
              | some pm =>
                cases pm with
                | file pc =>
                  simp only [hpar] at h
                  exact absurd h (by simp)
                | dir pcs =>
                  simp only [hpar] at h
                  by_cases hl2 : resolve s dst ∈ s.locked
                  · rw [if_pos hl2] at h
                    exact absurd h (by simp)
                  · rw [if_neg hl2] at h
                    simp only [Except.ok.injEq, Prod.mk.injEq] at h
                    exact ⟨c, rfl, hz, ⟨pcs, rfl⟩, h.1.symm, h.2.symm⟩
  | none =>
    cases hsrc : lookupNode s.root (resolve s src) with
    | none =>
      simp only [hsrc] at h
      exact absurd h (by simp)
    | some m =>
      cases m with
      | dir cs2 =>
        simp only [hsrc] at h
        exact absurd h (by simp)
      | file c =>
        simp only [hsrc] at h
        by_cases hl1 : resolve s src ∈ s.locked
        · rw [if_pos hl1] at h
          exact absurd h (by simp)
        · rw [if_neg hl1] at h
          by_cases hz : resolve s dst = []
          · rw [if_pos hz] at h
            exact absurd h (by simp)
          · rw [if_neg hz] at h
            cases hpar : lookupNode s.root (resolve s dst).dropLast with
            | none =>
              simp only [hpar] at h
              exact absurd h (by simp)
            | some pm =>
              cases pm with
              | file pc =>
                simp only [hpar] at h
                exact absurd h (by simp)
              | dir pcs =>
                simp only [hpar] at h
                by_cases hl2 : resolve s dst ∈ s.locked
                · rw [if_pos hl2] at h
                  exact absurd h (by simp)
                · rw [if_neg hl2] at h
                  simp only [Except.ok.injEq, Prod.mk.injEq] at h
                  exact ⟨c, rfl, hz, ⟨pcs, rfl⟩, h.1.symm, h.2.symm⟩

/-- A successful `shutil_copytree`: what must have held and what it
produced. -/
theorem copytree_ok_inv {s : Sys} {src dst : OsPath} {s1 : Sys} {evs : List Ev}
    (h : shutil_copytree s src dst = .ok (s1, evs)) :
    ∃ cs, lookupNode s.root (resolve s src) = some (.dir cs) ∧
      lookupNode s.root (resolve s dst) = none ∧
      canMakedirs s.root (resolve s dst) = true ∧
      s1 = treeCopiedState s (resolve s dst) cs ∧
      evs = .treeCopied (resolve s src) (resolve s dst) ::
        (filesUnder (.dir cs)).map
          (fun f => Ev.copiedFile ((resolve s src) ++ f) ((resolve s dst) ++ f)) := by
  simp only [shutil_copytree] at h
  cases hsrc : lookupNode s.root (resolve s src) with
  | none =>
    simp only [hsrc] at h
    exact absurd h (by simp)
  | some m =>
    cases m with
    | file c =>
      simp only [hsrc] at h
      exact absurd h (by simp)
    | dir cs =>
      simp only [hsrc] at h
      cases hdst : lookupNode s.root (resolve s dst) with
      | some m2 =>
        rw [if_pos (by rw [hdst]; rfl)] at h
        exact absurd h (by simp)
      | none =>
        rw [if_neg (by rw [hdst]; simp)] at h
        cases hcan : canMakedirs s.root (resolve s dst) with
        | false =>
          rw [if_pos (by rw [hcan]; rfl)] at h
          exact absurd h (by simp)
        | true =>
          rw [if_neg (by rw [hcan]; simp)] at h
          by_cases hlock : (lockedUnder s (resolve s src) ||
              decide (resolve s dst ∈ s.locked)) = true
          · rw [if_pos hlock] at h
            exact absurd h (by simp)
          · rw [if_neg hlock] at h
            simp only [Except.ok.injEq, Prod.mk.injEq] at h
            exact ⟨cs, rfl, rfl, rfl, h.1.symm, h.2.symm⟩

/-- The three possible result states of a failure-free `copy_item`, keyed on
the source path's kind. -/
theorem copy_item_nofail_state (s : Sys) (sp rp : OsPath)
    (hnf : noFailure (copy_item s sp rp).2 = true) :
    (isfileB s sp = true ∧ ∃ evs, shutil_copy2 s sp rp = .ok ((copy_item s sp rp).1, evs)) ∨
    (isfileB s sp = false ∧ isdirB s sp = true ∧
      ∃ evs, shutil_copytree s sp rp = .ok ((copy_item s sp rp).1, evs)) ∨
    (isfileB s sp = false ∧ isdirB s sp = false ∧ (copy_item s sp rp).1 = s) := by
  by_cases hf : isfileB s sp = true
  · left
    refine ⟨hf, ?_⟩
    rcases h2 : shutil_copy2 s sp rp with e | ⟨s1, evs⟩
    · rw [show copy_item s sp rp = (s, [.callCopy sp rp, .log (copyErrLog e sp)]) by
        simp [copy_item, hf, h2]] at hnf
      simp [noFailure, isFailLog_copyErr] at hnf
    · refine ⟨evs, ?_⟩
      rcases h3 : calculate_md5 s1 sp with e | smd5
      · simp [copy_item, hf, h2, h3]
      · rcases h4 : calculate_md5 s1 rp with e | rmd5
        · simp [copy_item, hf, h2, h3, h4]
        · simp [copy_item, hf, h2, h3, h4]
  · right
    by_cases hd : isdirB s sp = true
    · left
      refine ⟨by simpa using hf, hd, ?_⟩
      rcases h2 : shutil_copytree s sp rp with e | ⟨s1, evs⟩
      · rw [show copy_item s sp rp = (s, [.callCopy sp rp, .log (copyErrLog e sp)]) by
          simp [copy_item, hf, hd, h2]] at hnf
        simp [noFailure, isFailLog_copyErr] at hnf
      · exact ⟨evs, by simp [copy_item, hf, hd, h2]⟩
    · right
      exact ⟨by simpa using hf, by simpa using hd, by simp [copy_item, hf, hd]⟩

/-- The possible result states of `copy_item`, unconditionally. -/
theorem copy_item_state (s : Sys) (sp rp : OsPath) :
    (copy_item s sp rp).1 = s ∨
      (∃ evs, shutil_copy2 s sp rp = .ok ((copy_item s sp rp).1, evs)) ∨
      (∃ evs, shutil_copytree s sp rp = .ok ((copy_item s sp rp).1, evs)) := by
  by_cases hf : isfileB s sp = true
  · rcases h2 : shutil_copy2 s sp rp with e | ⟨s1, evs⟩
    · left
      simp [copy_item, hf, h2]
    · right
      left
      refine ⟨evs, ?_⟩
      rcases h3 : calculate_md5 s1 sp with e | smd5
      · simp [copy_item, hf, h2, h3]
      · rcases h4 : calculate_md5 s1 rp with e | rmd5
        · simp [copy_item, hf, h2, h3, h4]
        · simp [copy_item, hf, h2, h3, h4]
  · by_cases hd : isdirB s sp = true
    · rcases h2 : shutil_copytree s sp rp with e | ⟨s1, evs⟩
      · left
        simp [copy_item, hf, hd, h2]
      · right
        right
        exact ⟨evs, by simp [copy_item, hf, hd, h2]⟩
    · left
      simp [copy_item, hf, hd]

/-- A successful `shutil_copy2` only rewrites the tree. -/
theorem copy2_root_form {s : Sys} {src dst : OsPath} {s1 : Sys} {evs : List Ev}
    (h : shutil_copy2 s src dst = .ok (s1, evs)) :
    ∃ r, s1 = { s with root := r } := by
  simp only [shutil_copy2] at h
  repeat' split at h
  all_goals simp only [Except.ok.injEq, Prod.mk.injEq, reduceCtorEq] at h
  all_goals exact ⟨_, h.1.symm⟩

/-- A successful `shutil_copytree` only rewrites the tree. -/
theorem copytree_root_form {s : Sys} {src dst : OsPath} {s1 : Sys} {evs : List Ev}
    (h : shutil_copytree s src dst = .ok (s1, evs)) :
    ∃ r, s1 = { s with root := r } := by
  simp only [shutil_copytree] at h
  repeat' split at h
  all_goals simp only [Except.ok.injEq, Prod.mk.injEq, reduceCtorEq] at h
  all_goals exact ⟨_, h.1.symm⟩

/-- `copy_item` changes only the filesystem tree. -/
theorem copy_item_fields (s : Sys) (sp rp : OsPath) :
    (copy_item s sp rp).1.cwd = s.cwd ∧ (copy_item s sp rp).1.locked = s.locked ∧
      (copy_item s sp rp).1.writeEffect = s.writeEffect := by
  rcases copy_item_state s sp rp with h | ⟨evs, h⟩ | ⟨evs, h⟩
  · rw [h]
    exact ⟨rfl, rfl, rfl⟩
  · obtain ⟨r, hr⟩ := copy2_root_form h
    rw [hr]
    exact ⟨rfl, rfl, rfl⟩
  · obtain ⟨r, hr⟩ := copytree_root_form h
    rw [hr]
    exact ⟨rfl, rfl, rfl⟩

/-- Joining a relative entry onto a path resolves to the appended
components. -/
theorem resolve_osJoin_rel (s : Sys) (base : OsPath) (i : List String) :
    resolve s (osJoin base (relOf i)) = resolve s base ++ i := by
  cases hb : base.isAbs <;>
    simp [resolve, osJoin, relOf, hb, List.append_assoc]

/-- A strict extension is never a prefix of its stem. -/
theorem lePath_append_ne (R i : List String) (hi : i ≠ []) :
    lePath (R ++ i) R = false := by
  cases h : lePath (R ++ i) R with
  | false => rfl
  | true =>
    obtain ⟨t, ht⟩ := (lePath_iff_exists (R ++ i) R).mp h
    rw [List.append_assoc] at ht
    have hnil : i ++ t = [] := by
      have h2 : R ++ (i ++ t) = R ++ [] := by rw [List.append_nil]; exact ht.symm
      exact List.append_cancel_left h2
    exact absurd (List.append_eq_nil.mp hnil).1 hi

/-- `noFailure` distributes over concatenation. -/
theorem noFailure_append (a b : List Ev) :
    noFailure (a ++ b) = (noFailure a && noFailure b) := by
  simp [noFailure, List.all_append]

/-- The delete loop changes only the filesystem tree. -/
theorem deleteLoop_fields (si : List (List String)) (rep : OsPath) :
    ∀ (items : List (List String)) (s : Sys),
      (deleteLoop si rep s items).1.cwd = s.cwd ∧
        (deleteLoop si rep s items).1.locked = s.locked ∧
        (deleteLoop si rep s items).1.writeEffect = s.writeEffect := by
  intro items
  induction items with
  | nil => intro s; simp [deleteLoop]
  | cons i rest ih =>
    intro s
    by_cases hm : i ∈ si
    · simpa [deleteLoop, hm] using ih s
    · have h1 := delete_item_fields s (osJoin rep (relOf i))
      have h2 := ih (delete_item s (osJoin rep (relOf i))).1
      simp only [deleteLoop, if_neg hm]
      exact ⟨h2.1.trans h1.1, h2.2.1.trans h1.2.1, h2.2.2.trans h1.2.2⟩

/-- The delete loop never creates entries and never changes a kind: every
path's kind is preserved or erased. -/
theorem deleteLoop_subtractive (si : List (List String)) (rep : OsPath) :
    ∀ (items : List (List String)) (s : Sys) (q : List String),
      kindOf (deleteLoop si rep s items).1.root q = kindOf s.root q ∨
        kindOf (deleteLoop si rep s items).1.root q = none := by
  intro items
  induction items with
  | nil => intro s q; left; simp [deleteLoop]
  | cons i rest ih =>
    intro s q
    by_cases hm : i ∈ si
    · simpa [deleteLoop, hm] using ih s q
    · simp only [deleteLoop, if_neg hm]
      set p := osJoin rep (relOf i) with hp
      have hstep : kindOf (delete_item s p).1.root q = kindOf s.root q ∨
          kindOf (delete_item s p).1.root q = none := by
        rcases delete_item_state s p with h1 | h1
        · rw [h1]
          exact Or.inl rfl
        · rw [h1]
          show kindOf (removeAt s.root (resolve s p)) q = kindOf s.root q ∨
            kindOf (removeAt s.root (resolve s p)) q = none
          by_cases hd : resolve s p = []
          · rw [hd]
            simp only [removeAt]
            exact Or.inl trivial
          · rw [removeAt_kind (resolve s p) q s.root hd]
            by_cases hle : lePath (resolve s p) q = true
            · rw [if_pos hle]
              exact Or.inr rfl
            · rw [if_neg hle]
              exact Or.inl rfl
      rcases ih (delete_item s p).1 q with h2 | h2
      · rw [h2]
        exact hstep
      · exact Or.inr h2

/-- Paths out of reach of every deleted extra keep their kind through the
delete loop. -/
theorem deleteLoop_kind_outside (si : List (List String)) (rep : OsPath) :
    ∀ (items : List (List String)) (s : Sys) (q : List String),
      (∀ i, i ∈ items → i ∉ si → lePath (resolve s rep ++ i) q = false) →
      kindOf (deleteLoop si rep s items).1.root q = kindOf s.root q := by
  intro items
  induction items with
  | nil => intro s q _; simp [deleteLoop]
  | cons i rest ih =>
    intro s q hq
    by_cases hm : i ∈ si
    · rw [show deleteLoop si rep s (i :: rest) = deleteLoop si rep s rest by
        simp [deleteLoop, hm]]
      exact ih s q (fun j hj hjs => hq j (List.mem_cons_of_mem i hj) hjs)
    · simp only [deleteLoop, if_neg hm]
      set p := osJoin rep (relOf i) with hp
      have hres : resolve s p = resolve s rep ++ i := resolve_osJoin_rel s rep i
      have hle : lePath (resolve s p) q = false := by
        rw [hres]
        exact hq i (List.mem_cons_self i rest) hm
      have hrec : kindOf (deleteLoop si rep (delete_item s p).1 rest).1.root q =
          kindOf (delete_item s p).1.root q := by
        refine ih (delete_item s p).1 q ?_
        intro j hj hjs
        have hcwd : resolve (delete_item s p).1 rep = resolve s rep := by
          cases hb : rep.isAbs <;>
            simp [resolve, hb, (delete_item_fields s p).1]
        rw [hcwd]
        exact hq j (List.mem_cons_of_mem i hj) hjs
      rw [hrec]
      have hd : resolve s p ≠ [] := by
        intro hcon
        rw [hcon] at hle
        simp [lePath] at hle
      rcases delete_item_state s p with h1 | h1
      · rw [h1]
      · rw [h1]
        show kindOf (removeAt s.root (resolve s p)) q = kindOf s.root q
        rw [removeAt_kind (resolve s p) q s.root hd, if_neg (by rw [hle]; simp)]

/-- Paths unrelated to the replica root are untouched by the delete loop,
node for node. -/
theorem deleteLoop_outside (si : List (List String)) (rep : OsPath) :
    ∀ (items : List (List String)) (s : Sys) (q : List String),
      lePath q (resolve s rep) = false → lePath (resolve s rep) q = false →
      lookupNode (deleteLoop si rep s items).1.root q = lookupNode s.root q := by
  intro items
  induction items with
  | nil => intro s q _ _; simp [deleteLoop]
  | cons i rest ih =>
    intro s q h1 h2
    by_cases hm : i ∈ si
    · rw [show deleteLoop si rep s (i :: rest) = deleteLoop si rep s rest by
        simp [deleteLoop, hm]]
      exact ih s q h1 h2
    · simp only [deleteLoop, if_neg hm]
      set p := osJoin rep (relOf i) with hp
      have hres : resolve s p = resolve s rep ++ i := resolve_osJoin_rel s rep i
      have hcwd : resolve (delete_item s p).1 rep = resolve s rep := by
        cases hb : rep.isAbs <;>
          simp [resolve, hb, (delete_item_fields s p).1]
      have hrec := ih (delete_item s p).1 q (by rw [hcwd]; exact h1) (by rw [hcwd]; exact h2)
      rw [hrec]
      have hdisj := lePath_disjoint_append q (resolve s rep) i h1 h2
      rcases delete_item_state s p with h3 | h3
      · rw [h3]
      · rw [h3]
        show lookupNode (removeAt s.root (resolve s p)) q = lookupNode s.root q
        rw [removeAt_disjoint (resolve s p) q s.root (by rw [hres]; exact hdisj.2)
          (by rw [hres]; exact hdisj.1)]

/-- With no failure, every extra item of the listing is absent from the
replica when the delete loop finishes. -/
theorem deleteLoop_removes_extras (si : List (List String)) (rep : OsPath) :
    ∀ (items : List (List String)) (s : Sys),
      (∀ i, i ∈ items → i ≠ []) →
      noFailure (deleteLoop si rep s items).2 = true →
      ∀ i, i ∈ items → i ∉ si →
        kindOf (deleteLoop si rep s items).1.root (resolve s rep ++ i) = none := by
  intro items
  induction items with
  | nil => intro s _ _ i hi; simp at hi
  | cons j rest ih =>
    intro s hne hnf i hi hins
    by_cases hm : j ∈ si
    · have heq : deleteLoop si rep s (j :: rest) = deleteLoop si rep s rest := by
        simp [deleteLoop, hm]
      rw [heq]
      rw [heq] at hnf
      rcases List.mem_cons.mp hi with rfl | hi'
      · exact absurd hm hins
      · exact ih s (fun a ha => hne a (List.mem_cons_of_mem j ha)) hnf i hi' hins
    · simp only [deleteLoop, if_neg hm] at hnf ⊢
      set p := osJoin rep (relOf j) with hp
      rw [noFailure_append, Bool.and_eq_true] at hnf
      have hcwd : resolve (delete_item s p).1 rep = resolve s rep := by
        cases hb : rep.isAbs <;>
          simp [resolve, hb, (delete_item_fields s p).1]
      rcases List.mem_cons.mp hi with rfl | hi'
      · have hres : resolve s p = resolve s rep ++ i := resolve_osJoin_rel s rep i
        have hdne : resolve s p ≠ [] := by
          rw [hres]
          intro hcon
          exact hne i (List.mem_cons_self i rest) (List.append_eq_nil.mp hcon).2
        have hmid : kindOf (delete_item s p).1.root (resolve s rep ++ i) = none := by
          rcases delete_item_nofail s p hnf.1 with h1 | ⟨h1, h2⟩
          · rw [h1]
            show kindOf (removeAt s.root (resolve s p)) (resolve s rep ++ i) = none
            rw [removeAt_kind (resolve s p) _ s.root hdne, hres, if_pos (lePath_refl _)]
          · rw [h1]
            unfold sLookup at h2
            rw [hres] at h2
            simp [kindOf, h2]
        rcases deleteLoop_subtractive si rep rest (delete_item s p).1
            (resolve s rep ++ i) with hs | hs
        · rw [hs, hmid]
        · exact hs
      · have := ih (delete_item s p).1 (fun a ha => hne a (List.mem_cons_of_mem j ha))
          hnf.2 i hi' hins
        rw [hcwd] at this
        exact this

/-- Well-formedness restricts to every subtree. -/
theorem wfB_lookup : ∀ (p : List String) (n m : Node), n.wfB = true →
    lookupNode n p = some m → m.wfB = true
  | [], n, m, hw, h => by
    simp only [lookupNode, Option.some.injEq] at h
    rw [← h]
    exact hw
  | a :: p', n, m, hw, h => by
    cases n with
    | file c => simp [lookupNode] at h
    | dir cs =>
      simp only [lookupNode] at h
      cases hf : cs.find a with
      | none =>
        rw [hf] at h
        simp at h
      | some c =>
        rw [hf] at h
        exact wfB_lookup p' c m (Forest.wf_find cs a c hw hf) h

/-- Mutual prefixes are equal. -/
theorem lePath_antisymm (a b : List String) (h1 : lePath a b = true)
    (h2 : lePath b a = true) : a = b := by
  obtain ⟨t, rfl⟩ := (lePath_iff_exists a b).mp h1
  obtain ⟨u, hu⟩ := (lePath_iff_exists (a ++ t) a).mp h2
  rw [List.append_assoc] at hu
  have hnil : t ++ u = [] := by
    have h3 : a ++ (t ++ u) = a ++ [] := by
      rw [List.append_nil]
      exact hu.symm
    exact List.append_cancel_left h3
  rw [(List.append_eq_nil.mp hnil).1, List.append_nil]

/-- Extensions of two incomparable paths stay incomparable. -/
theorem lePath_incomp_append (S R x y : List String)
    (h1 : lePath S R = false) (h2 : lePath R S = false) :
    lePath (S ++ x) (R ++ y) = false := by
  have ha := lePath_disjoint_append R S x h2 h1
  exact (lePath_disjoint_append (S ++ x) R y ha.2 ha.1).1

/-- A directory kind comes from a directory node. -/
theorem kind_some_dir (n : Node) (q : List String) (h : kindOf n q = some .dir) :
    ∃ cs, lookupNode n q = some (.dir cs) := by
  unfold kindOf at h
  cases hl : lookupNode n q with
  | none =>
    rw [hl] at h
    simp at h
  | some m =>
    rw [hl] at h
    cases m with
    | file c => simp [Node.kind] at h
    | dir cs => exact ⟨cs, rfl⟩

/-- `setAt` at a nonempty path whose parent is a directory stores the node. -/
theorem lookup_setAt_self2 (d : List String) (n r : Node) (pcs : Forest)
    (hd : d ≠ []) (hpar : lookupNode n d.dropLast = some (.dir pcs)) :
    lookupNode (setAt n d r) d = some r := by
  have hdecomp : d.dropLast ++ [d.getLast hd] = d := List.dropLast_append_getLast hd
  have h := lookup_setAt_self d.dropLast n pcs (d.getLast hd) r hpar
  rwa [hdecomp] at h

/-- The delete loop preserves well-formedness of the tree. -/
theorem deleteLoop_wf (si : List (List String)) (rep : OsPath) :
    ∀ (items : List (List String)) (s : Sys), s.root.wfB = true →
      (deleteLoop si rep s items).1.root.wfB = true := by
  intro items
  induction items with
  | nil =>
    intro s h
    simpa [deleteLoop] using h
  | cons i rest ih =>
    intro s h
    by_cases hm : i ∈ si
    · rw [show deleteLoop si rep s (i :: rest) = deleteLoop si rep s rest by
        simp [deleteLoop, hm]]
      exact ih s h
    · simp only [deleteLoop, if_neg hm]
      refine ih _ ?_
      rcases delete_item_state s (osJoin rep (relOf i)) with h1 | h1
      · rw [h1]
        exact h
      · rw [h1]
        exact wfB_removeAt _ s.root h

/-- One non-skipped iteration of the copy loop with absolute roots: the
source subtree, well-formedness, the replica root directory and the
kind-tracking invariant are preserved, presence of source entries in the
replica is preserved, and the processed item itself is materialized. -/
theorem copy_step_spec (S R : List String) (scs : Forest)
    (ri2 : List (List String)) (i : List String) (t : Sys)
    (hd1 : lePath S R = false) (hd2 : lePath R S = false)
    (hwfs : Forest.wfB scs = true)
    (hi : i ≠ []) (him : (lookupNode (.dir scs) i).isSome = true)
    (hni : i ∉ ri2)
    (hsrc : ∀ x, lookupNode t.root (S ++ x) = lookupNode (.dir scs) x)
    (hwft : t.root.wfB = true)
    (hRd : ∃ rcsT, lookupNode t.root R = some (.dir rcsT))
    (hJ : ∀ q, q ≠ [] → lookupNode t.root (R ++ q) ≠ none →
      q ∈ ri2 ∨ kindOf t.root (R ++ q) = kindOf (.dir scs) q)
    (hnf : noFailure (copy_item t ⟨true, S ++ i⟩ ⟨true, R ++ i⟩).2 = true) :
    (∀ x, lookupNode (copy_item t ⟨true, S ++ i⟩ ⟨true, R ++ i⟩).1.root (S ++ x) =
        lookupNode (.dir scs) x) ∧
    (copy_item t ⟨true, S ++ i⟩ ⟨true, R ++ i⟩).1.root.wfB = true ∧
    (∃ rcsU, lookupNode (copy_item t ⟨true, S ++ i⟩ ⟨true, R ++ i⟩).1.root R =
        some (.dir rcsU)) ∧
    (∀ q, q ≠ [] →
      lookupNode (copy_item t ⟨true, S ++ i⟩ ⟨true, R ++ i⟩).1.root (R ++ q) ≠ none →
      q ∈ ri2 ∨ kindOf (copy_item t ⟨true, S ++ i⟩ ⟨true, R ++ i⟩).1.root (R ++ q) =
        kindOf (.dir scs) q) ∧
    (∀ e, (lookupNode (.dir scs) e).isSome = true →
      lookupNode t.root (R ++ e) ≠ none →
      lookupNode (copy_item t ⟨true, S ++ i⟩ ⟨true, R ++ i⟩).1.root (R ++ e) ≠ none) ∧
    lookupNode (copy_item t ⟨true, S ++ i⟩ ⟨true, R ++ i⟩).1.root (R ++ i) ≠ none := by
  set sp : OsPath := ⟨true, S ++ i⟩ with hspdef
  set rp : OsPath := ⟨true, R ++ i⟩ with hrpdef
  obtain ⟨m0, hm0⟩ : ∃ m0, lookupNode (.dir scs) i = some m0 := by
    cases hl : lookupNode (.dir scs) i with
    | none =>
      rw [hl] at him
      simp at him
    | some m => exact ⟨m, rfl⟩
  have hrsp : resolve t sp = S ++ i := rfl
  have hrrp : resolve t rp = R ++ i := rfl
  have htsl : sLookup t sp = some m0 := by
    unfold sLookup
    rw [hrsp, hsrc i, hm0]
  have hSR : ∀ x y : List String, lePath (S ++ x) (R ++ y) = false :=
    fun x y => lePath_incomp_append S R x y hd1 hd2
  have hRS : ∀ x y : List String, lePath (R ++ x) (S ++ y) = false :=
    fun x y => lePath_incomp_append R S x y hd2 hd1
  rcases copy_item_nofail_state t sp rp hnf with ⟨hf, evs, hok⟩ | ⟨hf, hdr, evs, hok⟩ |
    ⟨hf, hdr, _⟩
  · -- file case
    obtain ⟨c0, rfl⟩ : ∃ c0, m0 = .file c0 := by
      cases m0 with
      | file c => exact ⟨c, rfl⟩
      | dir cs =>
        unfold isfileB at hf
        rw [htsl] at hf
        simp at hf
    have hnd : ∀ cs2, lookupNode t.root (resolve t rp) ≠ some (.dir cs2) := by
      intro cs2 hcon
      rw [hrrp] at hcon
      rcases hJ i hi (by rw [hcon]; simp) with hmem | hkind
      · exact hni hmem
      · rw [show kindOf t.root (R ++ i) = some Kind.dir by
            unfold kindOf; rw [hcon]; rfl,
          show kindOf (.dir scs) i = some Kind.file by
            unfold kindOf; rw [hm0]; rfl] at hkind
        simp at hkind
    obtain ⟨c, hsrcf, hne0, ⟨pcs, hpar⟩, hstate, hevs⟩ := copy2_ok_inv hnd hok
    rw [hrrp] at hne0 hpar hstate
    have hroot : (copy_item t sp rp).1.root =
        setAt t.root (R ++ i) (.file (t.writeEffect (R ++ i) c)) := by
      rw [hstate]
      rfl
    have hself : lookupNode (copy_item t sp rp).1.root (R ++ i) =
        some (.file (t.writeEffect (R ++ i) c)) := by
      rw [hroot]
      exact lookup_setAt_self2 (R ++ i) t.root _ pcs hne0 hpar
    have hpresdisj : ∀ q : List String, lePath i q = false → lePath q i = false →
        lookupNode (copy_item t sp rp).1.root (R ++ q) = lookupNode t.root (R ++ q) := by
      intro q h1 h2
      rw [hroot]
      exact lookup_setAt_disjoint (R ++ i) (R ++ q) t.root _
        (by rw [lePath_append_same]; exact h1)
        (by rw [lePath_append_same]; exact h2)
    have c1 : ∀ x, lookupNode (copy_item t sp rp).1.root (S ++ x) =
        lookupNode (.dir scs) x := by
      intro x
      rw [hroot, lookup_setAt_disjoint (R ++ i) (S ++ x) t.root _ (hRS i x) (hSR x i)]
      exact hsrc x
    have c2 : (copy_item t sp rp).1.root.wfB = true := by
      rw [hroot]
      exact wfB_setAt (R ++ i) t.root _ hwft rfl
    have c6 : lookupNode (copy_item t sp rp).1.root (R ++ i) ≠ none := by
      rw [hself]
      simp
    have c3 : ∃ rcsU, lookupNode (copy_item t sp rp).1.root R = some (.dir rcsU) := by
      refine ancestor_dir _ R i hi ?_
      rw [hself]
      rfl
    have c4 : ∀ q, q ≠ [] → lookupNode (copy_item t sp rp).1.root (R ++ q) ≠ none →
        q ∈ ri2 ∨ kindOf (copy_item t sp rp).1.root (R ++ q) = kindOf (.dir scs) q := by
      intro q hq hlq
      cases hiq : lePath i q with
      | true =>
        cases hqi : lePath q i with
        | true =>
          have hqe : q = i := lePath_antisymm q i hqi hiq
          subst hqe
          right
          rw [show kindOf (copy_item t sp rp).1.root (R ++ q) = some Kind.file by
              unfold kindOf; rw [hself]; rfl,
            show kindOf (.dir scs) q = some Kind.file by
              unfold kindOf; rw [hm0]; rfl]
        | false =>
          obtain ⟨x, rfl⟩ := (lePath_iff_exists i q).mp hiq
          have hx : x ≠ [] := by
            rintro rfl
            rw [List.append_nil, lePath_refl] at hqi
            simp at hqi
          exfalso
          apply hlq
          rw [← List.append_assoc, lookupNode_append, hself]
          cases x with
          | nil => exact absurd rfl hx
          | cons a x' => rfl
      | false =>
        cases hqi : lePath q i with
        | true =>
          obtain ⟨y, rfl⟩ := (lePath_iff_exists q i).mp hqi
          have hy : y ≠ [] := by
            rintro rfl
            rw [List.append_nil, lePath_refl] at hiq
            simp at hiq
          right
          obtain ⟨csa, hcsa⟩ := ancestor_dir (copy_item t sp rp).1.root (R ++ q) y hy
            (by rw [List.append_assoc, hself]; rfl)
          obtain ⟨csb, hcsb⟩ := ancestor_dir (.dir scs) q y hy (by rw [hm0]; rfl)
          rw [show kindOf (copy_item t sp rp).1.root (R ++ q) = some Kind.dir by
              unfold kindOf; rw [hcsa]; rfl,
            show kindOf (.dir scs) q = some Kind.dir by
              unfold kindOf; rw [hcsb]; rfl]
        | false =>
          rw [hpresdisj q hiq hqi] at hlq
          rcases hJ q hq hlq with h | h
          · exact Or.inl h
          · right
            rw [show kindOf (copy_item t sp rp).1.root (R ++ q) =
                kindOf t.root (R ++ q) by
              unfold kindOf; rw [hpresdisj q hiq hqi]]
            exact h
    have c5 : ∀ e, (lookupNode (.dir scs) e).isSome = true →
        lookupNode t.root (R ++ e) ≠ none →
        lookupNode (copy_item t sp rp).1.root (R ++ e) ≠ none := by
      intro e hes hpt
      cases hie : lePath i e with
      | true =>
        cases hei : lePath e i with
        | true =>
          have hee : e = i := lePath_antisymm e i hei hie
          subst hee
          exact c6
        | false =>
          obtain ⟨x, rfl⟩ := (lePath_iff_exists i e).mp hie
          have hx : x ≠ [] := by
            rintro rfl
            rw [List.append_nil, lePath_refl] at hei
            simp at hei
          obtain ⟨csb, hcsb⟩ := ancestor_dir (.dir scs) i x hx hes
          rw [hm0] at hcsb
          simp at hcsb
      | false =>
        cases hei : lePath e i with
        | true =>
          obtain ⟨y, rfl⟩ := (lePath_iff_exists e i).mp hei
          have hy : y ≠ [] := by
            rintro rfl
            rw [List.append_nil, lePath_refl] at hie
            simp at hie
          obtain ⟨csa, hcsa⟩ := ancestor_dir (copy_item t sp rp).1.root (R ++ e) y hy
            (by rw [List.append_assoc, hself]; rfl)
          rw [hcsa]
          simp
        | false =>
          rw [hpresdisj e hie hei]
          exact hpt
    exact ⟨c1, c2, c3, c4, c5, c6⟩
  · -- directory case
    obtain ⟨cs, hsrcd, hdstnone, hcan, hstate, hevs⟩ := copytree_ok_inv hok
    rw [hrrp] at hdstnone hcan hstate
    rw [hrsp, hsrc i, hm0] at hsrcd
    obtain rfl : m0 = .dir cs := by injection hsrcd
    have hdne : R ++ i ≠ [] := by
      intro hcon
      exact hi (List.append_eq_nil.mp hcon).2
    have hroot : (copy_item t sp rp).1.root =
        setAt (mkdirsAt t.root (R ++ i).dropLast) (R ++ i)
          (applyWE t.writeEffect (R ++ i) (.dir cs)) := by
      rw [hstate]
      rfl
    have htd : t.root.isDirB = true := by
      obtain ⟨rcsT, hrT⟩ := hRd
      cases hr0 : R with
      | nil =>
        rw [hr0] at hrT
        have h2 : t.root = .dir rcsT := by simpa [lookupNode] using hrT
        rw [h2]
        rfl
      | cons a R' =>
        obtain ⟨cs0, hcs0⟩ := ancestor_dir t.root [] R (by rw [hr0]; simp)
          (by rw [List.nil_append, hrT]; rfl)
        have h2 : t.root = .dir cs0 := by simpa [lookupNode] using hcs0
        rw [h2]
        rfl
    have hchain := canMakedirs_chainOk (R ++ i) t.root hcan hdstnone
    obtain ⟨pcs', hM⟩ := mkdirs_creates (R ++ i).dropLast t.root htd hchain
    have hself : lookupNode (copy_item t sp rp).1.root (R ++ i) =
        some (applyWE t.writeEffect (R ++ i) (.dir cs)) := by
      rw [hroot]
      exact lookup_setAt_self2 (R ++ i) (mkdirsAt t.root (R ++ i).dropLast) _ pcs' hdne hM
    have hmout : ∀ q : List String, lePath q (R ++ i) = false →
        lookupNode (mkdirsAt t.root (R ++ i).dropLast) q = lookupNode t.root q := by
      intro q hq
      refine mkdirs_outside (R ++ i).dropLast q t.root ?_
      cases hql : lePath q (R ++ i).dropLast with
      | false => rfl
      | true =>
        exact absurd (lePath_trans q (R ++ i).dropLast (R ++ i) hql
          (lePath_dropLast (R ++ i))) (by rw [hq]; simp)
    have hpresdisj : ∀ q : List String, lePath i q = false → lePath q i = false →
        lookupNode (copy_item t sp rp).1.root (R ++ q) = lookupNode t.root (R ++ q) := by
      intro q h1 h2
      rw [hroot, lookup_setAt_disjoint (R ++ i) (R ++ q) _ _
        (by rw [lePath_append_same]; exact h1)
        (by rw [lePath_append_same]; exact h2)]
      exact hmout (R ++ q) (by rw [lePath_append_same]; exact h2)
    have c1 : ∀ x, lookupNode (copy_item t sp rp).1.root (S ++ x) =
        lookupNode (.dir scs) x := by
      intro x
      rw [hroot, lookup_setAt_disjoint (R ++ i) (S ++ x) _ _ (hRS i x) (hSR x i),
        hmout (S ++ x) (hSR x i)]
      exact hsrc x
    have c2 : (copy_item t sp rp).1.root.wfB = true := by
      rw [hroot]
      refine wfB_setAt (R ++ i) _ _ (wfB_mkdirsAt (R ++ i).dropLast t.root hwft) ?_
      exact wfB_applyWE _ t.writeEffect (R ++ i) (wfB_lookup i (.dir scs) (.dir cs) hwfs hm0)
    have c6 : lookupNode (copy_item t sp rp).1.root (R ++ i) ≠ none := by
      rw [hself]
      simp
    have c3 : ∃ rcsU, lookupNode (copy_item t sp rp).1.root R = some (.dir rcsU) := by
      refine ancestor_dir _ R i hi ?_
      rw [hself]
      rfl
    have hbelow : ∀ x : List String,
        lookupNode (copy_item t sp rp).1.root (R ++ (i ++ x)) =
          (lookupNode (.dir cs) x).map
            (fun m => applyWE t.writeEffect ((R ++ i) ++ x) m) := by
      intro x
      rw [← List.append_assoc, lookupNode_append, hself]
      show lookupNode (applyWE t.writeEffect (R ++ i) (.dir cs)) x = _
      exact lookup_applyWE x (.dir cs) t.writeEffect (R ++ i)
    have hsrcbelow : ∀ x : List String,
        lookupNode (.dir scs) (i ++ x) = lookupNode (.dir cs) x := by
      intro x
      rw [lookupNode_append, hm0]
      rfl
    have c4 : ∀ q, q ≠ [] → lookupNode (copy_item t sp rp).1.root (R ++ q) ≠ none →
        q ∈ ri2 ∨ kindOf (copy_item t sp rp).1.root (R ++ q) = kindOf (.dir scs) q := by
      intro q hq hlq
      cases hiq : lePath i q with
      | true =>
        cases hqi : lePath q i with
        | true =>
          have hqe : q = i := lePath_antisymm q i hqi hiq
          subst hqe
          right
          rw [show kindOf (copy_item t sp rp).1.root (R ++ q) = some Kind.dir by
              unfold kindOf; rw [hself]; rfl,
            show kindOf (.dir scs) q = some Kind.dir by
              unfold kindOf; rw [hm0]; rfl]
        | false =>
          obtain ⟨x, rfl⟩ := (lePath_iff_exists i q).mp hiq
          right
          cases hcx : lookupNode (.dir cs) x with
          | none =>
            exfalso
            apply hlq
            rw [hbelow x, hcx]
            rfl
          | some m =>
            rw [show kindOf (copy_item t sp rp).1.root (R ++ (i ++ x)) = some m.kind by
                unfold kindOf; rw [hbelow x, hcx]; simp [kind_applyWE],
              show kindOf (.dir scs) (i ++ x) = some m.kind by
                unfold kindOf; rw [hsrcbelow x, hcx]; rfl]
      | false =>
        cases hqi : lePath q i with
        | true =>
          obtain ⟨y, rfl⟩ := (lePath_iff_exists q i).mp hqi
          have hy : y ≠ [] := by
            rintro rfl
            rw [List.append_nil, lePath_refl] at hiq
            simp at hiq
          right
          obtain ⟨csa, hcsa⟩ := ancestor_dir (copy_item t sp rp).1.root (R ++ q) y hy
            (by rw [List.append_assoc, hself]; rfl)
          obtain ⟨csb, hcsb⟩ := ancestor_dir (.dir scs) q y hy (by rw [hm0]; rfl)
          rw [show kindOf (copy_item t sp rp).1.root (R ++ q) = some Kind.dir by
              unfold kindOf; rw [hcsa]; rfl,
            show kindOf (.dir scs) q = some Kind.dir by
              unfold kindOf; rw [hcsb]; rfl]
        | false =>
          rw [hpresdisj q hiq hqi] at hlq
          rcases hJ q hq hlq with h | h
          · exact Or.inl h
          · right
            rw [show kindOf (copy_item t sp rp).1.root (R ++ q) =
                kindOf t.root (R ++ q) by
              unfold kindOf; rw [hpresdisj q hiq hqi]]
            exact h
    have c5 : ∀ e, (lookupNode (.dir scs) e).isSome = true →
        lookupNode t.root (R ++ e) ≠ none →
        lookupNode (copy_item t sp rp).1.root (R ++ e) ≠ none := by
      intro e hes hpt
      cases hie : lePath i e with
      | true =>
        cases hei : lePath e i with
        | true =>
          have hee : e = i := lePath_antisymm e i hei hie
          subst hee
          exact c6
        | false =>
          obtain ⟨x, rfl⟩ := (lePath_iff_exists i e).mp hie
          rw [hsrcbelow x] at hes
          cases hcx : lookupNode (.dir cs) x with
          | none =>
            rw [hcx] at hes
            simp at hes
          | some m =>
            intro hcon
            rw [hbelow x, hcx] at hcon
            simp at hcon
      | false =>
        cases hei : lePath e i with
        | true =>
          obtain ⟨y, rfl⟩ := (lePath_iff_exists e i).mp hei
          have hy : y ≠ [] := by
            rintro rfl
            rw [List.append_nil, lePath_refl] at hie
            simp at hie
          obtain ⟨csa, hcsa⟩ := ancestor_dir (copy_item t sp rp).1.root (R ++ e) y hy
            (by rw [List.append_assoc, hself]; rfl)
          rw [hcsa]
          simp
        | false =>
          rw [hpresdisj e hie hei]
          exact hpt
    exact ⟨c1, c2, c3, c4, c5, c6⟩
  · -- the source entry exists, so this branch is impossible
    exfalso
    cases m0 with
    | file c =>
      unfold isfileB at hf
      rw [htsl] at hf
      simp at hf
    | dir cs =>
      unfold isdirB at hdr
      rw [htsl] at hdr
      simp at hdr

/-- The copy loop with absolute roots: the invariants of `copy_step_spec`
hold at the end of the loop, presence of source entries is preserved, and
every processed item ends up present in the replica. -/
theorem copyLoop_spec (S R : List String) (scs : Forest)
    (ri2 : List (List String)) (source replica : OsPath)
    (hsa : source.isAbs = true) (hra : replica.isAbs = true)
    (hSc : source.comps = S) (hRc : replica.comps = R)
    (hd1 : lePath S R = false) (hd2 : lePath R S = false)
    (hwfs : Forest.wfB scs = true) :
    ∀ (items : List (List String)) (t : Sys),
      (∀ e, e ∈ items → e ≠ [] ∧ (lookupNode (.dir scs) e).isSome = true) →
      (∀ x, lookupNode t.root (S ++ x) = lookupNode (.dir scs) x) →
      t.root.wfB = true →
      (∃ rcsT, lookupNode t.root R = some (.dir rcsT)) →
      (∀ q, q ≠ [] → lookupNode t.root (R ++ q) ≠ none →
        q ∈ ri2 ∨ kindOf t.root (R ++ q) = kindOf (.dir scs) q) →
      noFailure (copyLoop ri2 source replica t items).2 = true →
      (∀ x, lookupNode (copyLoop ri2 source replica t items).1.root (S ++ x) =
          lookupNode (.dir scs) x) ∧
      (copyLoop ri2 source replica t items).1.root.wfB = true ∧
      (∃ rcsF, lookupNode (copyLoop ri2 source replica t items).1.root R =
          some (.dir rcsF)) ∧
      (∀ q, q ≠ [] →
        lookupNode (copyLoop ri2 source replica t items).1.root (R ++ q) ≠ none →
        q ∈ ri2 ∨ kindOf (copyLoop ri2 source replica t items).1.root (R ++ q) =
          kindOf (.dir scs) q) ∧
      (∀ e, (lookupNode (.dir scs) e).isSome = true →
        lookupNode t.root (R ++ e) ≠ none →
        lookupNode (copyLoop ri2 source replica t items).1.root (R ++ e) ≠ none) ∧
      (∀ e, e ∈ items → (e ∈ ri2 → lookupNode t.root (R ++ e) ≠ none) →
        lookupNode (copyLoop ri2 source replica t items).1.root (R ++ e) ≠ none) := by
  intro items
  induction items with
  | nil =>
    intro t hitems hsrc hwft hRd hJ hnf
    refine ⟨?_, ?_, ?_, ?_, ?_, ?_⟩
    · intro x
      exact hsrc x
    · exact hwft
    · exact hRd
    · intro q hq h
      exact hJ q hq h
    · intro e _ h
      exact h
    · intro e he
      simp at he
  | cons i rest ih =>
    intro t hitems hsrc hwft hRd hJ hnf
    obtain ⟨hi, him⟩ := hitems i (List.mem_cons_self i rest)
    by_cases hm : i ∈ ri2
    · have heq : copyLoop ri2 source replica t (i :: rest) =
          copyLoop ri2 source replica t rest := by
        simp [copyLoop, hm]
      rw [heq] at hnf ⊢
      have hrec := ih t (fun e he => hitems e (List.mem_cons_of_mem i he))
        hsrc hwft hRd hJ hnf
      refine ⟨hrec.1, hrec.2.1, hrec.2.2.1, hrec.2.2.2.1, hrec.2.2.2.2.1, ?_⟩
      intro e he hpre
      rcases List.mem_cons.mp he with rfl | he'
      · exact hrec.2.2.2.2.1 e him (hpre hm)
      · exact hrec.2.2.2.2.2 e he' hpre
    · have hspe : osJoin source (relOf i) = (⟨true, S ++ i⟩ : OsPath) := by
        simp [osJoin, relOf, hsa, hSc]
      have hrpe : ∀ b : Bool, (if b then osJoin replica (osJoin replica (relOf i))
          else osJoin replica (relOf i)) = (⟨true, R ++ i⟩ : OsPath) := by
        intro b
        have h1 : osJoin replica (relOf i) = (⟨true, R ++ i⟩ : OsPath) := by
          simp [osJoin, relOf, hra, hRc]
        have h2 : osJoin replica (⟨true, R ++ i⟩ : OsPath) = (⟨true, R ++ i⟩ : OsPath) := by
          simp [osJoin]
        cases b <;> simp [h1, h2]
      have hunf : copyLoop ri2 source replica t (i :: rest) =
          ((copyLoop ri2 source replica
              (copy_item t ⟨true, S ++ i⟩ ⟨true, R ++ i⟩).1 rest).1,
            (copy_item t ⟨true, S ++ i⟩ ⟨true, R ++ i⟩).2 ++
              (copyLoop ri2 source replica
                (copy_item t ⟨true, S ++ i⟩ ⟨true, R ++ i⟩).1 rest).2) := by
        simp only [copyLoop, if_neg hm]
        rw [hspe, hrpe (isdirB t ⟨true, S ++ i⟩)]
      rw [hunf] at hnf ⊢
      have hnf1 : noFailure ((copy_item t ⟨true, S ++ i⟩ ⟨true, R ++ i⟩).2 ++
          (copyLoop ri2 source replica
            (copy_item t ⟨true, S ++ i⟩ ⟨true, R ++ i⟩).1 rest).2) = true := hnf
      rw [noFailure_append, Bool.and_eq_true] at hnf1
      obtain ⟨hc1, hc2, hc3, hc4, hc5, hc6⟩ :=
        copy_step_spec S R scs ri2 i t hd1 hd2 hwfs hi him hm hsrc hwft hRd hJ hnf1.1
      have hrec := ih (copy_item t ⟨true, S ++ i⟩ ⟨true, R ++ i⟩).1
        (fun e he => hitems e (List.mem_cons_of_mem i he)) hc1 hc2 hc3 hc4 hnf1.2
      refine ⟨hrec.1, hrec.2.1, hrec.2.2.1, hrec.2.2.2.1, ?_, ?_⟩
      · intro e hes hpt
        exact hrec.2.2.2.2.1 e hes (hc5 e hes hpt)
      · intro e he hpre
        rcases List.mem_cons.mp he with rfl | he'
        · exact hrec.2.2.2.2.1 e him hc6
        · refine hrec.2.2.2.2.2 e he' ?_
          intro hm2
          exact hc5 e (hitems e (List.mem_cons_of_mem i he')).2 (hpre hm2)

/-- Claim C1 (amended): for a pair of directory trees at incomparable
absolute root paths, after one synchronization cycle in which no per-item
operation fails, the set of relative entries under the replica root equals
the set of relative entries under the source root.  (As stated over
arbitrary — possibly relative — root paths the claim is false: see the
counterexample showing a relative replica root breaks convergence through
the double join of lines 197-198.) -/
theorem sync_cycle_converges (s : Sys) (source replica : OsPath)
    (scs rcs : Forest)
    (hsa : source.isAbs = true) (hra : replica.isAbs = true)
    (hwf : s.root.wfB = true)
    (hS : lookupNode s.root source.comps = some (.dir scs))
    (hR : lookupNode s.root replica.comps = some (.dir rcs))
    (hd1 : lePath source.comps replica.comps = false)
    (hd2 : lePath replica.comps source.comps = false)
    (hnf : noFailure (syncCycle s source replica).2 = true) :
    ∀ e, e ∈ walk_folder_content (syncCycle s source replica).1 replica ↔
      e ∈ walk_folder_content (syncCycle s source replica).1 source := by
  have hres : ∀ t : Sys, resolve t source = source.comps := fun t => by
    simp [resolve, hsa]
  have hresR : ∀ t : Sys, resolve t replica = replica.comps := fun t => by
    simp [resolve, hra]
  have hsi0 : walk_folder_content s source = walkEntries (Node.dir scs) := by
    unfold walk_folder_content sLookup
    rw [hres s, hS]
  have hri0 : walk_folder_content s replica = walkEntries (Node.dir rcs) := by
    unfold walk_folder_content sLookup
    rw [hresR s, hR]
  have hwfscs : Forest.wfB scs = true := wfB_lookup source.comps s.root (.dir scs) hwf hS
  have hwfrcs : Forest.wfB rcs = true := wfB_lookup replica.comps s.root (.dir rcs) hwf hR
  have hne_ri : ∀ i, i ∈ walkEntries (Node.dir rcs) → i ≠ [] := fun i hi =>
    ((mem_walkEntries (Node.dir rcs) hwfrcs i).mp hi).1
  have hnfA : noFailure ((delete_extra_items_from_replica s source replica).2 ++
      (copy_new_from_source_to_replica
        (delete_extra_items_from_replica s source replica).1 source replica).2) = true := hnf
  rw [noFailure_append, Bool.and_eq_true] at hnfA
  have hs1eq : (delete_extra_items_from_replica s source replica).1 = (deleteLoop (walkEntries (Node.dir scs)) replica s (walkEntries (Node.dir rcs))).1 := by
    have h : (delete_extra_items_from_replica s source replica).1 =
        (deleteLoop (walk_folder_content s source) replica s
          (walk_folder_content s replica)).1 := rfl
    rw [h, hsi0, hri0]
  have hnfD : noFailure (deleteLoop (walkEntries (Node.dir scs)) replica s (walkEntries (Node.dir rcs))).2 = true := by
    have h : noFailure (Ev.walkCall source :: Ev.walkCall replica ::
        (deleteLoop (walk_folder_content s source) replica s
          (walk_folder_content s replica)).2) = true := hnfA.1
    rw [hsi0, hri0] at h
    simpa [noFailure, isFailLog] using h
  have hs1S : lookupNode (deleteLoop (walkEntries (Node.dir scs)) replica s (walkEntries (Node.dir rcs))).1.root source.comps = some (.dir scs) := by
    have h := deleteLoop_outside (walkEntries (Node.dir scs)) replica
      (walkEntries (Node.dir rcs)) s source.comps
      (by rw [hresR s]; exact hd1) (by rw [hresR s]; exact hd2)
    exact h.trans hS
  have hsrc1 : ∀ x, lookupNode (deleteLoop (walkEntries (Node.dir scs)) replica s (walkEntries (Node.dir rcs))).1.root (source.comps ++ x) =
      lookupNode (Node.dir scs) x := by
    intro x
    rw [lookupNode_append, hs1S]
    rfl
  have hwf1 : (deleteLoop (walkEntries (Node.dir scs)) replica s (walkEntries (Node.dir rcs))).1.root.wfB = true :=
    deleteLoop_wf (walkEntries (Node.dir scs)) replica (walkEntries (Node.dir rcs)) s hwf
  have hkR : kindOf (deleteLoop (walkEntries (Node.dir scs)) replica s (walkEntries (Node.dir rcs))).1.root replica.comps = kindOf s.root replica.comps := by
    refine deleteLoop_kind_outside (walkEntries (Node.dir scs)) replica
      (walkEntries (Node.dir rcs)) s replica.comps ?_
    intro i hi hins
    rw [hresR s]
    exact lePath_append_ne replica.comps i (hne_ri i hi)
  obtain ⟨rcs1, hR1⟩ : ∃ rcs1, lookupNode (deleteLoop (walkEntries (Node.dir scs)) replica s (walkEntries (Node.dir rcs))).1.root replica.comps =
      some (.dir rcs1) := by
    refine kind_some_dir _ _ ?_
    rw [hkR]
    unfold kindOf
    rw [hR]
    rfl
  have hext : ∀ i, i ∈ walkEntries (Node.dir rcs) → i ∉ walkEntries (Node.dir scs) →
      kindOf (deleteLoop (walkEntries (Node.dir scs)) replica s (walkEntries (Node.dir rcs))).1.root (replica.comps ++ i) = none := by
    intro i hi hins
    have h := deleteLoop_removes_extras (walkEntries (Node.dir scs)) replica
      (walkEntries (Node.dir rcs)) s hne_ri hnfD i hi hins
    rwa [hresR s] at h
  have hsub1 : ∀ q, kindOf (deleteLoop (walkEntries (Node.dir scs)) replica s (walkEntries (Node.dir rcs))).1.root q = kindOf s.root q ∨
      kindOf (deleteLoop (walkEntries (Node.dir scs)) replica s (walkEntries (Node.dir rcs))).1.root q = none :=
    fun q => deleteLoop_subtractive (walkEntries (Node.dir scs)) replica
      (walkEntries (Node.dir rcs)) s q
  have hwfrcs1 : Forest.wfB rcs1 = true :=
    wfB_lookup replica.comps (deleteLoop (walkEntries (Node.dir scs)) replica s (walkEntries (Node.dir rcs))).1.root (.dir rcs1) hwf1 hR1
  have hsi1 : walk_folder_content (deleteLoop (walkEntries (Node.dir scs)) replica s (walkEntries (Node.dir rcs))).1 source = walkEntries (Node.dir scs) := by
    unfold walk_folder_content sLookup
    rw [hres (deleteLoop (walkEntries (Node.dir scs)) replica s (walkEntries (Node.dir rcs))).1, hs1S]
  have hri2 : walk_folder_content (deleteLoop (walkEntries (Node.dir scs)) replica s (walkEntries (Node.dir rcs))).1 replica = walkEntries (Node.dir rcs1) := by
    unfold walk_folder_content sLookup
    rw [hresR (deleteLoop (walkEntries (Node.dir scs)) replica s (walkEntries (Node.dir rcs))).1, hR1]
  have hphase2s1 : copy_new_from_source_to_replica (deleteLoop (walkEntries (Node.dir scs)) replica s (walkEntries (Node.dir rcs))).1 source replica =
      ((copyLoop (walkEntries (Node.dir rcs1)) source replica (deleteLoop (walkEntries (Node.dir scs)) replica s (walkEntries (Node.dir rcs))).1 (walkEntries (Node.dir scs))).1, Ev.walkCall source :: Ev.walkCall replica :: (copyLoop (walkEntries (Node.dir rcs1)) source replica (deleteLoop (walkEntries (Node.dir scs)) replica s (walkEntries (Node.dir rcs))).1 (walkEntries (Node.dir scs))).2) := by
    have h : copy_new_from_source_to_replica (deleteLoop (walkEntries (Node.dir scs)) replica s (walkEntries (Node.dir rcs))).1 source replica =
        ((copyLoop (walk_folder_content (deleteLoop (walkEntries (Node.dir scs)) replica s (walkEntries (Node.dir rcs))).1 replica) source replica (deleteLoop (walkEntries (Node.dir scs)) replica s (walkEntries (Node.dir rcs))).1
            (walk_folder_content (deleteLoop (walkEntries (Node.dir scs)) replica s (walkEntries (Node.dir rcs))).1 source)).1,
          Ev.walkCall source :: Ev.walkCall replica ::
            (copyLoop (walk_folder_content (deleteLoop (walkEntries (Node.dir scs)) replica s (walkEntries (Node.dir rcs))).1 replica) source replica (deleteLoop (walkEntries (Node.dir scs)) replica s (walkEntries (Node.dir rcs))).1
              (walk_folder_content (deleteLoop (walkEntries (Node.dir scs)) replica s (walkEntries (Node.dir rcs))).1 source)).2) := rfl
    rw [h, hsi1, hri2]
  have hnfC : noFailure (copyLoop (walkEntries (Node.dir rcs1)) source replica (deleteLoop (walkEntries (Node.dir scs)) replica s (walkEntries (Node.dir rcs))).1 (walkEntries (Node.dir scs))).2 = true := by
    have h := hnfA.2
    rw [hs1eq, hphase2s1] at h
    have h2 : noFailure (Ev.walkCall source :: Ev.walkCall replica :: (copyLoop (walkEntries (Node.dir rcs1)) source replica (deleteLoop (walkEntries (Node.dir scs)) replica s (walkEntries (Node.dir rcs))).1 (walkEntries (Node.dir scs))).2) = true := h
    simpa [noFailure, isFailLog] using h2
  have hitems : ∀ e, e ∈ walkEntries (Node.dir scs) →
      e ≠ [] ∧ (lookupNode (Node.dir scs) e).isSome = true := fun e he =>
    (mem_walkEntries (Node.dir scs) hwfscs e).mp he
  have hJ1 : ∀ q, q ≠ [] → lookupNode (deleteLoop (walkEntries (Node.dir scs)) replica s (walkEntries (Node.dir rcs))).1.root (replica.comps ++ q) ≠ none →
      q ∈ walkEntries (Node.dir rcs1) ∨
        kindOf (deleteLoop (walkEntries (Node.dir scs)) replica s (walkEntries (Node.dir rcs))).1.root (replica.comps ++ q) = kindOf (Node.dir scs) q := by
    intro q hq hlq
    left
    refine (mem_walkEntries (Node.dir rcs1) hwfrcs1 q).mpr ⟨hq, ?_⟩
    rw [lookupNode_append, hR1] at hlq
    have h2 : lookupNode (Node.dir rcs1) q ≠ none := hlq
    cases hc : lookupNode (Node.dir rcs1) q with
    | none => exact absurd hc h2
    | some m => rfl
  obtain ⟨hLsrc, hLwf, ⟨rcs2, hR2⟩, hLJ, hLpres, hLcomp⟩ :=
    copyLoop_spec source.comps replica.comps scs (walkEntries (Node.dir rcs1))
      source replica hsa hra rfl rfl hd1 hd2 hwfscs
      (walkEntries (Node.dir scs)) (deleteLoop (walkEntries (Node.dir scs)) replica s (walkEntries (Node.dir rcs))).1 hitems hsrc1 hwf1 ⟨rcs1, hR1⟩ hJ1 hnfC
  have hs2eq : (syncCycle s source replica).1 = (copyLoop (walkEntries (Node.dir rcs1)) source replica (deleteLoop (walkEntries (Node.dir scs)) replica s (walkEntries (Node.dir rcs))).1 (walkEntries (Node.dir scs))).1 := by
    have h : (syncCycle s source replica).1 =
        (copy_new_from_source_to_replica
          (delete_extra_items_from_replica s source replica).1 source replica).1 := rfl
    rw [h, hs1eq, hphase2s1]
  have hS2 : lookupNode (copyLoop (walkEntries (Node.dir rcs1)) source replica (deleteLoop (walkEntries (Node.dir scs)) replica s (walkEntries (Node.dir rcs))).1 (walkEntries (Node.dir scs))).1.root source.comps = some (.dir scs) := by
    have h := hLsrc []
    rw [List.append_nil] at h
    exact h
  have hwalkS2 : walk_folder_content (copyLoop (walkEntries (Node.dir rcs1)) source replica (deleteLoop (walkEntries (Node.dir scs)) replica s (walkEntries (Node.dir rcs))).1 (walkEntries (Node.dir scs))).1 source = walkEntries (Node.dir scs) := by
    unfold walk_folder_content sLookup
    rw [hres (copyLoop (walkEntries (Node.dir rcs1)) source replica (deleteLoop (walkEntries (Node.dir scs)) replica s (walkEntries (Node.dir rcs))).1 (walkEntries (Node.dir scs))).1, hS2]
  have hwalkR2 : walk_folder_content (copyLoop (walkEntries (Node.dir rcs1)) source replica (deleteLoop (walkEntries (Node.dir scs)) replica s (walkEntries (Node.dir rcs))).1 (walkEntries (Node.dir scs))).1 replica = walkEntries (Node.dir rcs2) := by
    unfold walk_folder_content sLookup
    rw [hresR (copyLoop (walkEntries (Node.dir rcs1)) source replica (deleteLoop (walkEntries (Node.dir scs)) replica s (walkEntries (Node.dir rcs))).1 (walkEntries (Node.dir scs))).1, hR2]
  have hwfrcs2 : Forest.wfB rcs2 = true :=
    wfB_lookup replica.comps (copyLoop (walkEntries (Node.dir rcs1)) source replica (deleteLoop (walkEntries (Node.dir scs)) replica s (walkEntries (Node.dir rcs))).1 (walkEntries (Node.dir scs))).1.root (.dir rcs2) hLwf hR2
  intro e
  rw [hs2eq, hwalkR2, hwalkS2]
  constructor
  · intro he
    obtain ⟨hene, hesome⟩ := (mem_walkEntries (Node.dir rcs2) hwfrcs2 e).mp he
    have hlook : lookupNode (copyLoop (walkEntries (Node.dir rcs1)) source replica (deleteLoop (walkEntries (Node.dir scs)) replica s (walkEntries (Node.dir rcs))).1 (walkEntries (Node.dir scs))).1.root (replica.comps ++ e) ≠ none := by
      rw [lookupNode_append, hR2]
      intro hcon
      have h2 : lookupNode (Node.dir rcs2) e = none := hcon
      rw [h2] at hesome
      simp at hesome
    rcases hLJ e hene hlook with hmem | hkind
    · have hs1some : (lookupNode (Node.dir rcs1) e).isSome = true :=
        ((mem_walkEntries (Node.dir rcs1) hwfrcs1 e).mp hmem).2
      have hs1look : lookupNode (deleteLoop (walkEntries (Node.dir scs)) replica s (walkEntries (Node.dir rcs))).1.root (replica.comps ++ e) ≠ none := by
        rw [lookupNode_append, hR1]
        intro hcon
        have h2 : lookupNode (Node.dir rcs1) e = none := hcon
        rw [h2] at hs1some
        simp at hs1some
      by_cases hesi : e ∈ walkEntries (Node.dir scs)
      · exact hesi
      · have hkind1 : kindOf (deleteLoop (walkEntries (Node.dir scs)) replica s (walkEntries (Node.dir rcs))).1.root (replica.comps ++ e) ≠ none := by
          unfold kindOf
          cases hc : lookupNode (deleteLoop (walkEntries (Node.dir scs)) replica s (walkEntries (Node.dir rcs))).1.root (replica.comps ++ e) with
          | none => exact absurd hc hs1look
          | some m => simp
        rcases hsub1 (replica.comps ++ e) with hq | hq
        · have hsome0 : (lookupNode (Node.dir rcs) e).isSome = true := by
            have h3 : kindOf s.root (replica.comps ++ e) ≠ none := by
              rw [← hq]
              exact hkind1
            unfold kindOf at h3
            rw [lookupNode_append, hR] at h3
            have h4 : lookupNode (Node.dir rcs) e ≠ none := by
              intro hcon
              apply h3
              have h5 : (lookupNode (Node.dir rcs) e).map Node.kind = none := by
                rw [hcon]
                rfl
              exact h5
            cases hc : lookupNode (Node.dir rcs) e with
            | none => exact absurd hc h4
            | some m => rfl
          have heri : e ∈ walkEntries (Node.dir rcs) :=
            (mem_walkEntries (Node.dir rcs) hwfrcs e).mpr ⟨hene, hsome0⟩
          exact absurd (hext e heri hesi) hkind1
        · exact absurd hq hkind1
    · have hsome : (lookupNode (Node.dir scs) e).isSome = true := by
        have hk2 : kindOf (copyLoop (walkEntries (Node.dir rcs1)) source replica (deleteLoop (walkEntries (Node.dir scs)) replica s (walkEntries (Node.dir rcs))).1 (walkEntries (Node.dir scs))).1.root (replica.comps ++ e) ≠ none := by
          unfold kindOf
          cases hc : lookupNode (copyLoop (walkEntries (Node.dir rcs1)) source replica (deleteLoop (walkEntries (Node.dir scs)) replica s (walkEntries (Node.dir rcs))).1 (walkEntries (Node.dir scs))).1.root (replica.comps ++ e) with
          | none => exact absurd hc hlook
          | some m => simp
        rw [hkind] at hk2
        unfold kindOf at hk2
        cases hc : lookupNode (Node.dir scs) e with
        | none =>
          rw [hc] at hk2
          simp at hk2
        | some m => rfl
      exact (mem_walkEntries (Node.dir scs) hwfscs e).mpr ⟨hene, hsome⟩
  · intro he
    obtain ⟨hene, hesome⟩ := hitems e he
    have hfinal : lookupNode (copyLoop (walkEntries (Node.dir rcs1)) source replica (deleteLoop (walkEntries (Node.dir scs)) replica s (walkEntries (Node.dir rcs))).1 (walkEntries (Node.dir scs))).1.root (replica.comps ++ e) ≠ none := by
      refine hLcomp e he ?_
      intro hmem
      have hs1some : (lookupNode (Node.dir rcs1) e).isSome = true :=
        ((mem_walkEntries (Node.dir rcs1) hwfrcs1 e).mp hmem).2
      rw [lookupNode_append, hR1]
      intro hcon
      have h2 : lookupNode (Node.dir rcs1) e = none := hcon
      rw [h2] at hs1some
      simp at hs1some
    refine (mem_walkEntries (Node.dir rcs2) hwfrcs2 e).mpr ⟨hene, ?_⟩
    rw [lookupNode_append, hR2] at hfinal
    have h4 : lookupNode (Node.dir rcs2) e ≠ none := hfinal
    cases hc : lookupNode (Node.dir rcs2) e with
    | none => exact absurd hc h4
    | some m => rfl

/-- Witness for the amended C1 at a concrete input: the mixed fixture (source
`/src` holding a file and a nested directory, replica `/rep` holding one
stale file) satisfies every hypothesis, and the entry `a` is present in the
replica listing exactly as in the source listing after the cycle. -/
theorem sync_cycle_converges_witness :
    noFailure (syncCycle sysMixed pS pR).2 = true ∧
      (["a"] ∈ walk_folder_content (syncCycle sysMixed pS pR).1 pR ↔
        ["a"] ∈ walk_folder_content (syncCycle sysMixed pS pR).1 pS) :=
  ⟨by decide,
    sync_cycle_converges sysMixed pS pR
      (.cons "a" (.file [1]) (.cons "d" (.dir (.cons "x" (.file [3]) .nil)) .nil))
      (.cons "old" (.file [2]) .nil)
      (by decide) (by decide) (by decide) (by decide) (by decide) (by decide)
      (by decide) (by decide) ["a"]⟩

end UniSync
